import Mathlib

/-!
Shallow embedding of the `zensearch` entity engine
(`src/zensearch/entity_engine.py`): an in-memory record store with a
primary-key index and per-field inverted indices, plus its search API.
-/

/-- A Python/JSON-style value: the value model of the records the engine
ingests (string, integer, boolean, null, list, nested string-keyed map). -/
inductive Value where
  | str (s : String)
  | int (n : Int)
  | bool (b : Bool)
  | null
  | list (xs : List Value)
  | dict (kvs : List (String × Value))

namespace Value

mutual

/-- Structural (syntactic) equality test on values. -/
def beq : Value → Value → Bool
  | .str a, .str b => a == b
  | .int a, .int b => a == b
  | .bool a, .bool b => a == b
  | .null, .null => true
  | .list xs, .list ys => beqList xs ys
  | .dict xs, .dict ys => beqFields xs ys
  | _, _ => false
  termination_by structural a => a

def beqList : List Value → List Value → Bool
  | [], [] => true
  | x :: xs, y :: ys => beq x y && beqList xs ys
  | _, _ => false
  termination_by structural xs => xs

def beqFields : List (String × Value) → List (String × Value) → Bool
  | [], [] => true
  | (k, x) :: xs, (l, y) :: ys => k == l && beq x y && beqFields xs ys
  | _, _ => false
  termination_by structural xs => xs

end

mutual

theorem beq_eq_true_iff : ∀ a b : Value, beq a b = true ↔ a = b
  | .str a, b => by cases b <;> simp [beq]
  | .int a, b => by cases b <;> simp [beq]
  | .bool a, b => by cases b <;> simp [beq]
  | .null, b => by cases b <;> simp [beq]
  | .list xs, b => by
      cases b <;> simp [beq]
      exact beqList_iff_eq xs _
  | .dict xs, b => by
      cases b <;> simp [beq]
      exact beqFields_iff_eq xs _

theorem beqList_iff_eq : ∀ xs ys : List Value, beqList xs ys = true ↔ xs = ys
  | [], ys => by cases ys <;> simp [beqList]
  | x :: xs, ys => by
      cases ys with
      | nil => simp [beqList]
      | cons y ys =>
          simp [beqList, beq_eq_true_iff x y, beqList_iff_eq xs ys]

theorem beqFields_iff_eq :
    ∀ xs ys : List (String × Value), beqFields xs ys = true ↔ xs = ys
  | [], ys => by cases ys <;> simp [beqFields]
  | (k, x) :: xs, ys => by
      cases ys with
      | nil => simp [beqFields]
      | cons y ys =>
          cases y with
          | mk l v =>
              simp [beqFields, beq_eq_true_iff x v, beqFields_iff_eq xs ys]

end

instance : DecidableEq Value := fun a b =>
  decidable_of_iff (beq a b = true) (beq_eq_true_iff a b)

end Value

namespace Value

/-- The single-quote character used by Python `repr` of strings. -/
def quoteChar : Char := Char.ofNat 39

/-- Python `repr` of a string: single-quoted (escape processing is not
modelled; the engine's claims never depend on it). -/
def strRepr (s : String) : String :=
  String.singleton quoteChar ++ s ++ String.singleton quoteChar

mutual

/-- Python `repr` of a value, restricted to the value model above
(strings are shown single-quoted without escape processing, integers in
decimal, booleans as `True`/`False`, `None`, lists in brackets, maps in
braces).  Only used through `pyStr` below. -/
def pyRepr : Value → String
  | .str s => strRepr s
  | .int n => toString n
  | .bool b => if b then "True" else "False"
  | .null => "None"
  | .list xs => "[" ++ pyReprList xs ++ "]"
  | .dict kvs => "\x7b" ++ pyReprFields kvs ++ "\x7d"
  termination_by structural v => v

def pyReprList : List Value → String
  | [] => ""
  | [x] => pyRepr x
  | x :: xs => pyRepr x ++ ", " ++ pyReprList xs
  termination_by structural xs => xs

def pyReprFields : List (String × Value) → String
  | [] => ""
  | [(k, v)] => strRepr k ++ ": " ++ pyRepr v
  | (k, v) :: kvs => strRepr k ++ ": " ++ pyRepr v ++ ", " ++ pyReprFields kvs
  termination_by structural kvs => kvs

end

/-- Python `str()` of a value: the canonical string form used for
primary-key comparison (a string is its own `str`; other values use
their `repr`). -/
def pyStr : Value → String
  | .str s => s
  | v => pyRepr v

mutual

/-- Normalization underlying Python `==` on this value model: `True == 1`
and `False == 0`, so booleans normalize to integers; everything else is
compared structurally. -/
def pyNorm : Value → Value
  | .str s => .str s
  | .int n => .int n
  | .bool b => .int (if b then 1 else 0)
  | .null => .null
  | .list xs => .list (pyNormList xs)
  | .dict kvs => .dict (pyNormFields kvs)
  termination_by structural v => v

def pyNormList : List Value → List Value
  | [] => []
  | x :: xs => pyNorm x :: pyNormList xs
  termination_by structural xs => xs

def pyNormFields : List (String × Value) → List (String × Value)
  | [] => []
  | (k, v) :: kvs => (k, pyNorm v) :: pyNormFields kvs
  termination_by structural kvs => kvs

end

/-- Python `==` on this value model (used as the key-equality of Python
dictionaries; all keys reaching a dict operation in the engine are
hashable, i.e. not lists or maps, where this agrees with Python). -/
def pyEq (a b : Value) : Bool := pyNorm a == pyNorm b

theorem pyEq_refl (a : Value) : pyEq a a = true := by simp [pyEq]

theorem pyEq_symm {a b : Value} (h : pyEq a b = true) : pyEq b a = true := by
  simp only [pyEq, beq_iff_eq] at h ⊢
  exact h.symm

theorem pyEq_trans {a b c : Value} (h1 : pyEq a b = true)
    (h2 : pyEq b c = true) : pyEq a c = true := by
  simp only [pyEq, beq_iff_eq] at h1 h2 ⊢
  exact h1.trans h2

/-- `isinstance(v, list)` in the value model. -/
def isList : Value → Bool
  | .list _ => true
  | _ => false

/-- `isinstance(v, Hashable)`: lists and maps are unhashable in Python;
the remaining value forms are hashable. -/
def isHashable : Value → Bool
  | .list _ => false
  | .dict _ => false
  | _ => true

/-- Python truthiness of a value (empty strings/lists/maps, zero, `False`
and `None` are falsy). -/
def pyTruthy : Value → Bool
  | .str s => s != ""
  | .int n => n != 0
  | .bool b => b
  | .null => false
  | .list xs => !xs.isEmpty
  | .dict kvs => !kvs.isEmpty

/-- `v is None` in the value model. -/
def pyIsNone : Value → Bool
  | .null => true
  | _ => false

mutual

/-- Value-level effect of `ujson.loads(ujson.dumps(v))`: a full
structural copy of a serializable value.  (The aliasing consequences of
the fresh allocation are modelled separately by the heap model below.) -/
def deepCopy : Value → Value
  | .str s => .str s
  | .int n => .int n
  | .bool b => .bool b
  | .null => .null
  | .list xs => .list (deepCopyList xs)
  | .dict kvs => .dict (deepCopyFields kvs)
  termination_by structural v => v

def deepCopyList : List Value → List Value
  | [] => []
  | x :: xs => deepCopy x :: deepCopyList xs
  termination_by structural xs => xs

def deepCopyFields : List (String × Value) → List (String × Value)
  | [] => []
  | (k, v) :: kvs => (k, deepCopy v) :: deepCopyFields kvs
  termination_by structural kvs => kvs

end

mutual

theorem deepCopy_eq : ∀ v : Value, deepCopy v = v
  | .str _ => rfl
  | .int _ => rfl
  | .bool _ => rfl
  | .null => rfl
  | .list xs => by simp [deepCopy, deepCopyList_eq xs]
  | .dict kvs => by simp [deepCopy, deepCopyFields_eq kvs]

theorem deepCopyList_eq : ∀ xs : List Value, deepCopyList xs = xs
  | [] => rfl
  | x :: xs => by simp [deepCopyList, deepCopy_eq x, deepCopyList_eq xs]

theorem deepCopyFields_eq :
    ∀ kvs : List (String × Value), deepCopyFields kvs = kvs
  | [] => rfl
  | (k, v) :: kvs => by
      simp [deepCopyFields, deepCopy_eq v, deepCopyFields_eq kvs]

end

end Value

/-- A record (data point): a Python dict with string field names, as
produced by parsing a JSON object. -/
abbrev Record := List (String × Value)

/-- `record.get(key, default)` on a string-keyed Python dict:
the value at the first matching field name, if any. -/
def recGet (r : Record) (k : String) : Option Value :=
  (r.find? (fun kv => kv.1 == k)).map (·.2)

example : (Value.int 3) ≠ (Value.str "3") := by decide
example : Value.pyStr (.int 3) = "3" := by rfl
example : Value.pyStr (.str "3") = "3" := by rfl
example : Value.pyStr .null = "None" := by rfl
example : Value.pyStr (.list [.int 1]) = "[1]" := by rfl
example : Value.pyEq (.bool true) (.int 1) = true := by rfl
example : Value.pyEq (.int 1) (.str "1") = false := by rfl

/-! ## The `_indices` table

`Entity._indices` is a single Python dict from field name to index.
The index under the primary-key field maps canonical key strings to
whole records; every other index maps a field value to the bucket
(list) of primary-key values of the records holding that value. -/

/-- One stored value of an index: a whole record (primary index) or a
bucket of primary-key values (secondary index). -/
inductive Entry where
  | record (r : Record)
  | bucket (pks : List Value)
  deriving DecidableEq

/-- One index: a Python dict keyed by field values, compared with
Python `==` (`pyEq`). -/
abbrev Idx := List (Value × Entry)

/-- The `_indices` attribute: a Python dict from field name to index. -/
abbrev Indices := List (String × Idx)

/-- `d.get(k, None)` on a value-keyed Python dict. -/
def idxGet (d : Idx) (k : Value) : Option Entry :=
  (d.find? (fun kv => Value.pyEq kv.1 k)).map (·.2)

/-- `d[k] = v` on a value-keyed Python dict: overwrite the value at the
first `pyEq`-matching key (keeping the stored key object), else append
a new entry at the end (Python dicts preserve insertion order). -/
def idxSet (d : Idx) (k : Value) (v : Entry) : Idx :=
  match d with
  | [] => [(k, v)]
  | (k0, v0) :: rest =>
      if Value.pyEq k0 k then (k0, v) :: rest
      else (k0, v0) :: idxSet rest k v

/-- In-place `d[k].append(p)`: append `p` to the bucket stored at the
first `pyEq`-matching key (a non-bucket entry is left unchanged; the
engine never reaches that case, see `update_non_primary_index`). -/
def idxAppend (d : Idx) (k : Value) (p : Value) : Idx :=
  match d with
  | [] => []
  | (k0, v0) :: rest =>
      if Value.pyEq k0 k then
        (k0, match v0 with | .bucket b => .bucket (b ++ [p]) | e => e) :: rest
      else (k0, v0) :: idxAppend rest k p

/-- `self._indices.get(f, None)` (string-keyed outer dict). -/
def indGet (ind : Indices) (f : String) : Option Idx :=
  (ind.find? (fun fd => fd.1 == f)).map (·.2)

/-- `self._indices[f] = d` (string-keyed outer dict). -/
def indSet (ind : Indices) (f : String) (d : Idx) : Indices :=
  match ind with
  | [] => [(f, d)]
  | (f0, d0) :: rest =>
      if f0 = f then (f0, d) :: rest
      else (f0, d0) :: indSet rest f d

/-- The Python object stored in an index entry, seen as a value (a
record is a dict object, a bucket is a list object). -/
def entryVal : Entry → Value
  | .record r => .dict r
  | .bucket b => .list b

/-- The errors the engine raises (`zensearch.exceptions` plus the host
exceptions `TypeError`/`AttributeError` raised by Python itself). -/
inductive ZError where
  | duplicatePrimaryKey (fieldValue : Value)
  | primaryKeyNotFound (dataPoint : Record) (key : String)
  | unhashableValue (fieldValue : Value) (field : String) (dataPoint : Record)
  | unhashableKeyType (key : Value)
  | listAppendOnDict
  deriving DecidableEq

/-! ## The engine -/

/-- The `Entity` store state (`entity_name`, `primary_key`, `_indices`,
`_data`, `_keys_set`). -/
structure Entity where
  entity_name : String
  primary_key : String
  indices : Indices
  data : List Record
  keys_set : List String
  deriving DecidableEq

/-- `Entity.__init__`: the store starts with an empty primary index,
no data and no observed keys. -/
def Entity.init (entity_name : String) (primary_key : String) : Entity :=
  { entity_name := entity_name, primary_key := primary_key,
    indices := [(primary_key, [])], data := [], keys_set := [] }

/-- `Entity.__update_non_primary_index`.  A Python dict operation with
an unhashable key raises `TypeError`; both branches below use
`data_value` as a dict key (a `.get` or a dict display), so the check
is hoisted to the top.  `self._indices.get(index_name, None)` is tested
for truthiness (absent or an empty dict both fail it), and so is the
entry found under `data_value` (buckets are never empty, so a truthy
entry is appended to, anything else is overwritten). -/
def update_non_primary_index (ind : Indices) (primary_key_value : Value)
    (index_name : String) (data_value : Value) : Except ZError Indices :=
  if !Value.isHashable data_value then
    .error (.unhashableKeyType data_value)
  else
    match indGet ind index_name with
    | some d =>
        if !d.isEmpty then
          match idxGet d data_value with
          | some en =>
              if Value.pyTruthy (entryVal en) then
                match en with
                | .bucket _ =>
                    .ok (indSet ind index_name (idxAppend d data_value primary_key_value))
                | .record _ => .error .listAppendOnDict
              else
                .ok (indSet ind index_name (idxSet d data_value (.bucket [primary_key_value])))
          | none =>
              .ok (indSet ind index_name (idxSet d data_value (.bucket [primary_key_value])))
        else .ok (indSet ind index_name [(data_value, .bucket [primary_key_value])])
    | none => .ok (indSet ind index_name [(data_value, .bucket [primary_key_value])])

/-- `Entity._check_for_mandatory_keys`: `mandatory_keys` is the
one-element list `[self.primary_key]`, and the check
`data_point.get(key, None) is None` fails for a missing key and for an
explicit null value alike. -/
def check_for_mandatory_keys (primary_key : String) (data_point : Record) :
    Except ZError Unit :=
  if Value.pyIsNone ((recGet data_point primary_key).getD .null) then
    .error (.primaryKeyNotFound data_point primary_key)
  else .ok ()

/-- The body of the `for field in self._keys_set` loop of
`Entity._build_indices`, indexing one observed field of one data point. -/
def index_field (primary_key : String) (data_point : Record)
    (primary_key_value : Value) (ind : Indices) (field : String) :
    Except ZError Indices :=
  let field_value := (recGet data_point field).getD (.str "")
  if field = primary_key then
    -- `if self._indices[field].get(str(field_value), None):` raise, else insert
    let d := (indGet ind field).getD []
    match idxGet d (.str (Value.pyStr field_value)) with
    | some en =>
        if Value.pyTruthy (entryVal en) then .error (.duplicatePrimaryKey field_value)
        else .ok (indSet ind field (idxSet d (.str (Value.pyStr field_value)) (.record data_point)))
    | none => .ok (indSet ind field (idxSet d (.str (Value.pyStr field_value)) (.record data_point)))
  else if !Value.isHashable field_value && !Value.isList field_value then
    .error (.unhashableValue field_value field data_point)
  else
    match field_value with
    | .list vs =>
        if vs.length = 0 then
          update_non_primary_index ind primary_key_value field (.str "")
        else
          vs.foldlM (fun acc sub_field =>
            update_non_primary_index acc primary_key_value field sub_field) ind
    | _ => update_non_primary_index ind primary_key_value field field_value

/-- One iteration of the outer loop of `Entity._build_indices`: validate
one data point, read its primary-key value, and run the field loop. -/
def index_data_point (primary_key : String) (keys_set : List String)
    (ind : Indices) (data_point : Record) : Except ZError Indices := do
  let _ ← check_for_mandatory_keys primary_key data_point
  let primary_key_value := (recGet data_point primary_key).getD .null
  keys_set.foldlM (index_field primary_key data_point primary_key_value) ind

/-- `Entity._build_indices`, acting on the `_indices` table. -/
def build_indices (primary_key : String) (keys_set : List String)
    (ind : Indices) (data : List Record) : Except ZError Indices :=
  if data = [] then .ok ind
  else data.foldlM (index_data_point primary_key keys_set) ind

/-- Adding one element to the modelled key set: append it unless present. -/
def insertKey (acc : List String) (k : String) : List String :=
  if k ∈ acc then acc else acc ++ [k]

/-- `self._keys_set.union(*self._data)`: the union of the current key
set with the field names of every record of the batch.  Python's set
iteration order is unspecified; the model fixes first-appearance order
(every theorem below is insensitive to this order). -/
def unionKeys (ks : List String) (data : List Record) : List String :=
  data.foldl (fun acc r => r.foldl (fun acc2 kv => insertKey acc2 kv.1) acc) ks

/-- `Entity.load_data_build_indices` on an already-normalized batch of
records.  (The loader's path/single-dict/type-error normalization turns
its argument into such a batch before any indexing work; the file and
parse steps are IO and are outside this model.) -/
def Entity.load_data_build_indices (e : Entity) (data_red : List Record) :
    Except ZError Entity := do
  let ks := unionKeys e.keys_set data_red
  let ind ← build_indices e.primary_key ks e.indices data_red
  .ok { e with data := data_red, keys_set := ks, indices := ind }

/-- `Entity.get_data_from_primary_keys`: normalize a scalar argument to
a one-element list, then for each key in order look up its canonical
string form in the primary index; the truthy matches are returned as
deep copies (`ujson.loads(ujson.dumps(match))`), everything else is
silently skipped. -/
def Entity.get_data_from_primary_keys (e : Entity) (search_keys : Value) :
    List Value :=
  let keys : List Value :=
    match search_keys with
    | .list ks => ks
    | v => [v]
  let d := (indGet e.indices e.primary_key).getD []
  keys.filterMap (fun key =>
    match idxGet d (.str (Value.pyStr key)) with
    | some en =>
        if Value.pyTruthy (entryVal en) then some (Value.deepCopy (entryVal en))
        else none
    | none => none)

/-- `Entity.search`.  The secondary-index lookup
`self._indices[search_key].get(search_term, None)` is a dict lookup
with the raw search term as key, so an unhashable term raises
`TypeError`; whatever it produces (bucket, or `None` when no bucket
matched) is passed on to `get_data_From_primary_keys`. -/
def Entity.search (e : Entity) (search_key : String) (search_term : Value) :
    Except ZError (List Value) :=
  if search_key = e.primary_key then
    .ok (e.get_data_from_primary_keys search_term)
  else
    match indGet e.indices search_key with
    | none => .ok []
    | some d =>
        if !Value.isHashable search_term then .error (.unhashableKeyType search_term)
        else
          match idxGet d search_term with
          | some en => .ok (e.get_data_from_primary_keys (entryVal en))
          | none => .ok (e.get_data_from_primary_keys .null)

/-! Sanity checks mirroring the repository's own tests
(`src/tests/test_entity_engine.py`). -/

example :
    (Entity.init "user" "_id").load_data_build_indices [] =
      .ok { entity_name := "user", primary_key := "_id",
            indices := [("_id", [])], data := [], keys_set := [] } := by rfl

example :
    (Entity.init "user" "_id").load_data_build_indices
        [[("_id", .int 1), ("d", .int 2)]] =
      .ok { entity_name := "user", primary_key := "_id",
            indices := [("_id", [(.str "1", .record [("_id", .int 1), ("d", .int 2)])]),
                        ("d", [(.int 2, .bucket [.int 1])])],
            data := [[("_id", .int 1), ("d", .int 2)]],
            keys_set := ["_id", "d"] } := by rfl

example :
    (Entity.init "ticket" "_id").load_data_build_indices
        [[("_id", .int 1), ("tags", .list [.str "tag1", .str "tag2"])]] =
      .ok { entity_name := "ticket", primary_key := "_id",
            indices := [("_id", [(.str "1", .record [("_id", .int 1), ("tags", .list [.str "tag1", .str "tag2"])])]),
                        ("tags", [(.str "tag1", .bucket [.int 1]), (.str "tag2", .bucket [.int 1])])],
            data := [[("_id", .int 1), ("tags", .list [.str "tag1", .str "tag2"])]],
            keys_set := ["_id", "tags"] } := by rfl

example :
    ((Entity.init "ticket" "_id").load_data_build_indices
        [[("_id", .int 1), ("tags", .list [])]]).map (fun e => indGet e.indices "tags") =
      .ok (some [(.str "", .bucket [.int 1])]) := by rfl

example :
    ((Entity.init "org" "_id").load_data_build_indices
        [[("_id", .str ""), ("name", .str "surya")]]).map (fun e => e.indices) =
      .ok [("_id", [(.str "", .record [("_id", .str ""), ("name", .str "surya")])]),
           ("name", [(.str "surya", .bucket [.str ""])])] := by rfl

example :
    ((Entity.init "ticket" "_id").load_data_build_indices
        [[("_id", .int 1), ("name", .str "surya")], [("_id", .int 2), ("name", .str "surya")]]).map
        (fun e => indGet e.indices "name") =
      .ok (some [(.str "surya", .bucket [.int 1, .int 2])]) := by rfl

-- a primary-key value that is itself unhashable is stringified, not rejected
example :
    ((Entity.init "ticket" "_id").load_data_build_indices [[("_id", .list [.int 1])]]).map
        (fun e => e.indices) =
      .ok [("_id", [(.str "[1]", .record [("_id", .list [.int 1])])])] := by rfl

example :
    (Entity.init "user" "_id").load_data_build_indices [[("_id", .int 1)], [("_id", .int 1)]] =
      .error (.duplicatePrimaryKey (.int 1)) := by rfl

example :
    (Entity.init "user" "_id").load_data_build_indices
        [[("_id", .int 1)], [("url", .str "https://test.com")]] =
      .error (.primaryKeyNotFound [("url", .str "https://test.com")] "_id") := by rfl

example :
    (Entity.init "ticket" "_id").load_data_build_indices [[("_id", .int 1), ("tags", .dict [])]] =
      .error (.unhashableValue (.dict []) "tags" [("_id", .int 1), ("tags", .dict [])]) := by rfl

-- `get_data_from_primary_keys`: order, duplicates, scalar normalization, skipping
example :
    ((Entity.init "user" "_id").load_data_build_indices
        [[("_id", .int 1), ("name", .str "one")], [("_id", .int 2), ("name", .str "two")]]).map
        (fun e => (e.get_data_from_primary_keys (.list [.int 2, .int 1, .int 2]),
                   e.get_data_from_primary_keys (.int 1),
                   e.get_data_from_primary_keys (.list [.int 0, .str "9", .null]),
                   e.get_data_from_primary_keys (.str ""),
                   e.get_data_from_primary_keys .null)) =
      .ok ([.dict [("_id", .int 2), ("name", .str "two")],
            .dict [("_id", .int 1), ("name", .str "one")],
            .dict [("_id", .int 2), ("name", .str "two")]],
           [.dict [("_id", .int 1), ("name", .str "one")]], [], [], []) := by rfl

-- `search`: secondary hit, miss, unindexed field, primary-key delegation
example :
    ((Entity.init "user" "_id").load_data_build_indices
        [[("_id", .int 1), ("name", .str "one")], [("_id", .int 2), ("name", .str "two")]]).map
        (fun e => (e.search "name" (.str "two"),
                   e.search "name" (.str "2"),
                   e.search "foo_index" (.str "zero"),
                   e.search "_id" (.int 2))) =
      .ok (.ok [.dict [("_id", .int 2), ("name", .str "two")]],
           .ok [],
           .ok [],
           .ok [.dict [("_id", .int 2), ("name", .str "two")]]) := by rfl

-- searching the default "" entry finds the records that lack the field
example :
    ((Entity.init "user" "_id").load_data_build_indices
        [[("_id", .int 1)],
         [("_id", .int 2), ("name", .str "testname")],
         [("_id", .int 3), ("alias", .str "testalias")]]).map
        (fun e => e.search "name" (.str "")) =
      .ok (.ok [.dict [("_id", .int 1)],
                .dict [("_id", .int 3), ("alias", .str "testalias")]]) := by rfl

/-! ## Derived notions used in the statements -/

/-- The primary-key value of a record (`data_point[self.primary_key]`,
read with the same default as `data_point.get`). -/
def pkVal (primary_key : String) (r : Record) : Value :=
  (recGet r primary_key).getD .null

/-- The canonical string form of a record's primary-key value. -/
def canonKey (primary_key : String) (r : Record) : String :=
  Value.pyStr (pkVal primary_key r)

/-- The values a record contributes to the secondary index of `field`,
following the flattening policy of `_build_indices`: the field's value
(or `""` when absent), the elements for a non-empty list, and `""` for
an empty list. -/
def contribs (r : Record) (field : String) : List Value :=
  match (recGet r field).getD (.str "") with
  | .list vs => if vs = [] then [.str ""] else vs
  | v => [v]

/-- The bucket of primary-key values reachable by looking up value `v`
in the index of `field` (empty if the field has no index, `v` no
bucket, or the entry is not a bucket). -/
def bucketLookup (ind : Indices) (field : String) (v : Value) : List Value :=
  match indGet ind field with
  | some d =>
      match idxGet d v with
      | some (.bucket b) => b
      | _ => []
  | none => []

/-- The bucket entries record `r` accounts for under value `v` of
`field`: one copy of its primary key per contribution that compares
`pyEq`-equal to `v`. -/
def recContrib (primary_key : String) (r : Record) (field : String) (v : Value) :
    List Value :=
  ((contribs r field).filter (fun c => Value.pyEq c v)).map (fun _ => pkVal primary_key r)

/-- The primary index built from a batch, in batch order. -/
def prevPrimary (primary_key : String) (rs : List Record) : Idx :=
  rs.map (fun r => (Value.str (canonKey primary_key r), Entry.record r))

/-! ## Dictionary-operation lemmas -/

theorem pyEq_true_iff {a b : Value} :
    Value.pyEq a b = true ↔ Value.pyNorm a = Value.pyNorm b := by
  simp [Value.pyEq]

theorem pyEq_false_iff {a b : Value} :
    Value.pyEq a b = false ↔ Value.pyNorm a ≠ Value.pyNorm b := by
  rw [← Bool.not_eq_true, pyEq_true_iff]

theorem pyEq_str_iff {a b : String} :
    Value.pyEq (.str a) (.str b) = true ↔ a = b := by
  simp [Value.pyEq, Value.pyNorm]

theorem idxGet_cons_pos {k0 k : Value} {v0 : Entry} {rest : Idx}
    (h : Value.pyEq k0 k = true) : idxGet ((k0, v0) :: rest) k = some v0 := by
  simp [idxGet, List.find?_cons_of_pos, h]

theorem idxGet_cons_neg {k0 k : Value} {v0 : Entry} {rest : Idx}
    (h : Value.pyEq k0 k = false) : idxGet ((k0, v0) :: rest) k = idxGet rest k := by
  simp only [idxGet]
  rw [List.find?_cons_of_neg]
  simp [h]

theorem idxSet_cons_pos {k0 k : Value} {v0 v : Entry} {rest : Idx}
    (h : Value.pyEq k0 k = true) :
    idxSet ((k0, v0) :: rest) k v = (k0, v) :: rest := by
  simp [idxSet, h]

theorem idxSet_cons_neg {k0 k : Value} {v0 v : Entry} {rest : Idx}
    (h : Value.pyEq k0 k = false) :
    idxSet ((k0, v0) :: rest) k v = (k0, v0) :: idxSet rest k v := by
  simp [idxSet, h]

theorem idxAppend_cons_pos {k0 k p : Value} {v0 : Entry} {rest : Idx}
    (h : Value.pyEq k0 k = true) :
    idxAppend ((k0, v0) :: rest) k p =
      (k0, match v0 with | .bucket b => .bucket (b ++ [p]) | e => e) :: rest := by
  simp [idxAppend, h]

theorem idxAppend_cons_neg {k0 k p : Value} {v0 : Entry} {rest : Idx}
    (h : Value.pyEq k0 k = false) :
    idxAppend ((k0, v0) :: rest) k p = (k0, v0) :: idxAppend rest k p := by
  simp [idxAppend, h]

theorem idxSet_get_eqk {d : Idx} {k k' : Value} {v : Entry}
    (h : Value.pyEq k k' = true) : idxGet (idxSet d k v) k' = some v := by
  induction d with
  | nil => exact idxGet_cons_pos h
  | cons kv rest ih =>
      obtain ⟨k0, v0⟩ := kv
      cases h0 : Value.pyEq k0 k with
      | true =>
          rw [idxSet_cons_pos h0]
          exact idxGet_cons_pos (Value.pyEq_trans h0 h)
      | false =>
          rw [idxSet_cons_neg h0]
          have h0' : Value.pyEq k0 k' = false := by
            rw [pyEq_false_iff] at h0 ⊢
            rw [pyEq_true_iff] at h
            rw [← h]; exact h0
          rw [idxGet_cons_neg h0']
          exact ih

theorem idxSet_get_ne {d : Idx} {k k' : Value} {v : Entry}
    (h : Value.pyEq k k' = false) : idxGet (idxSet d k v) k' = idxGet d k' := by
  induction d with
  | nil =>
      simp only [idxSet]
      rw [idxGet_cons_neg h]
  | cons kv rest ih =>
      obtain ⟨k0, v0⟩ := kv
      cases h0 : Value.pyEq k0 k with
      | true =>
          rw [idxSet_cons_pos h0]
          have h0' : Value.pyEq k0 k' = false := by
            rw [pyEq_false_iff] at h ⊢
            rw [pyEq_true_iff] at h0
            rw [h0]; exact h
          rw [idxGet_cons_neg h0', idxGet_cons_neg h0']
      | false =>
          rw [idxSet_cons_neg h0]
          cases h0' : Value.pyEq k0 k' with
          | true => rw [idxGet_cons_pos h0', idxGet_cons_pos h0']
          | false => rw [idxGet_cons_neg h0', idxGet_cons_neg h0']; exact ih

theorem idxAppend_get_eq {d : Idx} {k k' p : Value} {b : List Value}
    (hb : idxGet d k = some (.bucket b)) (h : Value.pyEq k k' = true) :
    idxGet (idxAppend d k p) k' = some (.bucket (b ++ [p])) := by
  induction d with
  | nil => simp [idxGet] at hb
  | cons kv rest ih =>
      obtain ⟨k0, v0⟩ := kv
      cases h0 : Value.pyEq k0 k with
      | true =>
          rw [idxGet_cons_pos h0] at hb
          cases hb
          rw [idxAppend_cons_pos h0]
          exact idxGet_cons_pos (Value.pyEq_trans h0 h)
      | false =>
          rw [idxGet_cons_neg h0] at hb
          rw [idxAppend_cons_neg h0]
          have h0' : Value.pyEq k0 k' = false := by
            rw [pyEq_false_iff] at h0 ⊢
            rw [pyEq_true_iff] at h
            rw [← h]; exact h0
          rw [idxGet_cons_neg h0']
          exact ih hb

theorem idxAppend_get_ne {d : Idx} {k k' p : Value}
    (h : Value.pyEq k k' = false) : idxGet (idxAppend d k p) k' = idxGet d k' := by
  induction d with
  | nil => simp [idxAppend]
  | cons kv rest ih =>
      obtain ⟨k0, v0⟩ := kv
      cases h0 : Value.pyEq k0 k with
      | true =>
          rw [idxAppend_cons_pos h0]
          have h0' : Value.pyEq k0 k' = false := by
            rw [pyEq_false_iff] at h ⊢
            rw [pyEq_true_iff] at h0
            rw [h0]; exact h
          rw [idxGet_cons_neg h0', idxGet_cons_neg h0']
      | false =>
          rw [idxAppend_cons_neg h0]
          cases h0' : Value.pyEq k0 k' with
          | true => rw [idxGet_cons_pos h0', idxGet_cons_pos h0']
          | false => rw [idxGet_cons_neg h0', idxGet_cons_neg h0']; exact ih

theorem mem_idxSet {d : Idx} {k : Value} {v : Entry} {ve : Value × Entry}
    (h : ve ∈ idxSet d k v) : ve.2 = v ∨ ve ∈ d := by
  induction d with
  | nil =>
      simp only [idxSet, List.mem_singleton] at h
      left; rw [h]
  | cons kv rest ih =>
      obtain ⟨k0, v0⟩ := kv
      cases h0 : Value.pyEq k0 k with
      | true =>
          rw [idxSet_cons_pos h0] at h
          rcases List.mem_cons.mp h with h1 | h1
          · left; rw [h1]
          · right; exact List.mem_cons_of_mem _ h1
      | false =>
          rw [idxSet_cons_neg h0] at h
          rcases List.mem_cons.mp h with h1 | h1
          · right; rw [h1]; exact List.mem_cons_self _ _
          · rcases ih h1 with h2 | h2
            · exact Or.inl h2
            · exact Or.inr (List.mem_cons_of_mem _ h2)

theorem mem_idxAppend {d : Idx} {k p : Value} {ve : Value × Entry}
    (h : ve ∈ idxAppend d k p) :
    (∃ k0 b, ve = (k0, .bucket (b ++ [p])) ∧ (k0, Entry.bucket b) ∈ d) ∨ ve ∈ d := by
  induction d with
  | nil => simp [idxAppend] at h
  | cons kv rest ih =>
      obtain ⟨k0, v0⟩ := kv
      cases h0 : Value.pyEq k0 k with
      | true =>
          rw [idxAppend_cons_pos h0] at h
          rcases List.mem_cons.mp h with h1 | h1
          · cases v0 with
            | bucket b =>
                left
                exact ⟨k0, b, by simpa using h1, List.mem_cons_self _ _⟩
            | record r =>
                right; rw [h1]; exact List.mem_cons_self _ _
          · right; exact List.mem_cons_of_mem _ h1
      | false =>
          rw [idxAppend_cons_neg h0] at h
          rcases List.mem_cons.mp h with h1 | h1
          · right; rw [h1]; exact List.mem_cons_self _ _
          · rcases ih h1 with ⟨k1, b, hb1, hb2⟩ | h2
            · exact Or.inl ⟨k1, b, hb1, List.mem_cons_of_mem _ hb2⟩
            · exact Or.inr (List.mem_cons_of_mem _ h2)

theorem indGet_cons_pos {f0 f : String} {d0 : Idx} {rest : Indices}
    (h : f0 = f) : indGet ((f0, d0) :: rest) f = some d0 := by
  simp [indGet, List.find?_cons_of_pos, h]

theorem indGet_cons_neg {f0 f : String} {d0 : Idx} {rest : Indices}
    (h : f0 ≠ f) : indGet ((f0, d0) :: rest) f = indGet rest f := by
  simp only [indGet]
  rw [List.find?_cons_of_neg]
  simp [h]

theorem indSet_cons_pos {f0 f : String} {d0 d : Idx} {rest : Indices}
    (h : f0 = f) : indSet ((f0, d0) :: rest) f d = (f0, d) :: rest := by
  simp [indSet, h]

theorem indSet_cons_neg {f0 f : String} {d0 d : Idx} {rest : Indices}
    (h : f0 ≠ f) : indSet ((f0, d0) :: rest) f d = (f0, d0) :: indSet rest f d := by
  simp [indSet, h]

theorem indGet_set_self {ind : Indices} {f : String} {d : Idx} :
    indGet (indSet ind f d) f = some d := by
  induction ind with
  | nil => exact indGet_cons_pos rfl
  | cons fd rest ih =>
      obtain ⟨f0, d0⟩ := fd
      by_cases h0 : f0 = f
      · rw [indSet_cons_pos h0]
        exact indGet_cons_pos h0
      · rw [indSet_cons_neg h0, indGet_cons_neg h0]
        exact ih

theorem indGet_set_ne {ind : Indices} {f f' : String} {d : Idx}
    (h : f' ≠ f) : indGet (indSet ind f d) f' = indGet ind f' := by
  induction ind with
  | nil =>
      simp only [indSet]
      rw [indGet_cons_neg (fun hc => h hc.symm)]
  | cons fd rest ih =>
      obtain ⟨f0, d0⟩ := fd
      by_cases h0 : f0 = f
      · have h0' : f0 ≠ f' := fun hc => h (hc ▸ h0)
        rw [indSet_cons_pos h0, indGet_cons_neg h0', indGet_cons_neg h0']
      · rw [indSet_cons_neg h0]
        by_cases h0' : f0 = f'
        · rw [indGet_cons_pos h0', indGet_cons_pos h0']
        · rw [indGet_cons_neg h0', indGet_cons_neg h0']; exact ih

theorem mem_indSet {ind : Indices} {f : String} {d : Idx} {fd : String × Idx}
    (h : fd ∈ indSet ind f d) : (fd.1 = f ∧ fd.2 = d) ∨ fd ∈ ind := by
  induction ind with
  | nil =>
      simp only [indSet, List.mem_singleton] at h
      left; rw [h]; exact ⟨rfl, rfl⟩
  | cons fd0 rest ih =>
      obtain ⟨f0, d0⟩ := fd0
      by_cases h0 : f0 = f
      · rw [indSet_cons_pos h0] at h
        rcases List.mem_cons.mp h with h1 | h1
        · left; rw [h1]; exact ⟨h0, rfl⟩
        · right; exact List.mem_cons_of_mem _ h1
      · rw [indSet_cons_neg h0] at h
        rcases List.mem_cons.mp h with h1 | h1
        · right; rw [h1]; exact List.mem_cons_self _ _
        · rcases ih h1 with h2 | h2
          · exact Or.inl h2
          · exact Or.inr (List.mem_cons_of_mem _ h2)

/-! ## Further lookup lemmas -/

theorem idxGet_congr {d : Idx} {k k' : Value} (h : Value.pyEq k k' = true) :
    idxGet d k = idxGet d k' := by
  induction d with
  | nil => rfl
  | cons kv rest ih =>
      obtain ⟨k0, v0⟩ := kv
      cases h0 : Value.pyEq k0 k with
      | true => rw [idxGet_cons_pos h0, idxGet_cons_pos (Value.pyEq_trans h0 h)]
      | false =>
          have h0' : Value.pyEq k0 k' = false := by
            rw [pyEq_false_iff] at h0 ⊢
            rw [pyEq_true_iff] at h
            rw [← h]; exact h0
          rw [idxGet_cons_neg h0, idxGet_cons_neg h0']
          exact ih

theorem idxGet_some_mem {d : Idx} {k : Value} {e : Entry}
    (h : idxGet d k = some e) : ∃ k0, (k0, e) ∈ d := by
  induction d with
  | nil => simp [idxGet] at h
  | cons kv rest ih =>
      obtain ⟨k0, v0⟩ := kv
      cases h0 : Value.pyEq k0 k with
      | true =>
          rw [idxGet_cons_pos h0] at h
          injection h with h1
          exact ⟨k0, by rw [h1]; exact List.mem_cons_self _ _⟩
      | false =>
          rw [idxGet_cons_neg h0] at h
          obtain ⟨k1, hk1⟩ := ih h
          exact ⟨k1, List.mem_cons_of_mem _ hk1⟩

theorem indGet_some_mem {ind : Indices} {f : String} {d : Idx}
    (h : indGet ind f = some d) : (f, d) ∈ ind := by
  induction ind with
  | nil => simp [indGet] at h
  | cons fd rest ih =>
      obtain ⟨f0, d0⟩ := fd
      by_cases h0 : f0 = f
      · rw [indGet_cons_pos h0] at h
        injection h with h1
        subst h0; rw [← h1]
        exact List.mem_cons_self _ _
      · rw [indGet_cons_neg h0] at h
        exact List.mem_cons_of_mem _ (ih h)

theorem idxSet_of_get_none {d : Idx} {k : Value} {v : Entry}
    (h : idxGet d k = none) : idxSet d k v = d ++ [(k, v)] := by
  induction d with
  | nil => rfl
  | cons kv rest ih =>
      obtain ⟨k0, v0⟩ := kv
      cases h0 : Value.pyEq k0 k with
      | true => rw [idxGet_cons_pos h0] at h; cases h
      | false =>
          rw [idxGet_cons_neg h0] at h
          rw [idxSet_cons_neg h0, ih h]
          rfl

/-- A record that passed `_check_for_mandatory_keys` is a non-empty dict. -/
theorem valid_rec_ne_nil {pk : String} {r : Record}
    (h : Value.pyIsNone (pkVal pk r) = false) : r ≠ [] := by
  intro hr
  subst hr
  simp [pkVal, recGet, Value.pyIsNone] at h

theorem truthy_of_valid {pk : String} {r : Record}
    (h : Value.pyIsNone (pkVal pk r) = false) :
    Value.pyTruthy (entryVal (.record r)) = true := by
  have hr : r ≠ [] := valid_rec_ne_nil h
  simp [entryVal, Value.pyTruthy, hr]

theorem recGet_some_of_valid {pk : String} {r : Record}
    (h : Value.pyIsNone (pkVal pk r) = false) : ∃ v, recGet r pk = some v := by
  cases hx : recGet r pk with
  | some v => exact ⟨v, rfl⟩
  | none =>
      unfold pkVal at h
      rw [hx] at h
      simp [Value.pyIsNone] at h

theorem pk_key_mem_of_valid {pk : String} {r : Record}
    (h : Value.pyIsNone (pkVal pk r) = false) : ∃ kv ∈ r, kv.1 = pk := by
  obtain ⟨v, hv⟩ := recGet_some_of_valid h
  simp only [recGet] at hv
  cases hfind : List.find? (fun kv => kv.1 == pk) r with
  | none => rw [hfind] at hv; cases hv
  | some kv =>
      have hm := List.mem_of_find?_eq_some hfind
      have hp := List.find?_some hfind
      exact ⟨kv, hm, by simpa using hp⟩

/-- The structural well-formedness of the non-primary part of the
`_indices` table: every entry of a non-primary index is a non-empty
bucket whose elements satisfy `P` (in use: are primary-key values of
already-indexed records). -/
def IdxWF (pk : String) (P : Value → Prop) (ind : Indices) : Prop :=
  ∀ fd ∈ ind, fd.1 ≠ pk → ∀ ve ∈ fd.2,
    ∃ b, ve.2 = Entry.bucket b ∧ b ≠ [] ∧ ∀ x ∈ b, P x

theorem IdxWF.mono {pk : String} {P Q : Value → Prop} {ind : Indices}
    (h : IdxWF pk P ind) (hPQ : ∀ x, P x → Q x) : IdxWF pk Q ind := by
  intro fd hfd hne ve hve
  obtain ⟨b, h1, h2, h3⟩ := h fd hfd hne ve hve
  exact ⟨b, h1, h2, fun x hx => hPQ x (h3 x hx)⟩

/-- Effect of `__update_non_primary_index` on a well-formed table: it
succeeds, appends `pkv` to the bucket of every value `pyEq`-equal to
`c` under `f0` (creating index and bucket as needed), and leaves every
other field's index untouched. -/
theorem update_effect {ind : Indices} {pk f0 : String} {pkv c : Value}
    {P : Value → Prop}
    (hf0 : f0 ≠ pk)
    (hhash : Value.isHashable c = true)
    (hwf : IdxWF pk P ind) (hP : P pkv) :
    ∃ ind',
      update_non_primary_index ind pkv f0 c = .ok ind' ∧
      (∀ v, bucketLookup ind' f0 v =
          bucketLookup ind f0 v ++ (if Value.pyEq c v = true then [pkv] else [])) ∧
      (∀ f, f ≠ f0 → indGet ind' f = indGet ind f) ∧
      IdxWF pk P ind' := by
  have hwf_new : ∀ ind1, (∀ fd ∈ ind1, fd.1 ≠ pk → ∀ ve ∈ fd.2,
      ∃ b, ve.2 = Entry.bucket b ∧ b ≠ [] ∧ ∀ x ∈ b, P x) → IdxWF pk P ind1 :=
    fun _ h => h
  cases hind : indGet ind f0 with
  | none =>
      refine ⟨indSet ind f0 [(c, .bucket [pkv])], ?_, ?_, ?_, ?_⟩
      · simp only [update_non_primary_index, hhash, Bool.not_true, Bool.false_eq_true,
          if_false, hind]
      · intro v
        simp only [bucketLookup, indGet_set_self, hind]
        cases hcv : Value.pyEq c v with
        | true => rw [idxGet_cons_pos hcv]; rfl
        | false => rw [idxGet_cons_neg hcv]; rfl
      · intro f hf
        exact indGet_set_ne hf
      · intro fd hfd hne ve hve
        rcases mem_indSet hfd with ⟨h1, h2⟩ | hmem
        · rw [h2] at hve
          rcases List.mem_singleton.mp hve with rfl
          exact ⟨[pkv], rfl, by simp, by simpa using hP⟩
        · exact hwf fd hmem hne ve hve
  | some d =>
      cases hemp : d.isEmpty with
      | true =>
          have hd : d = [] := List.isEmpty_iff.mp hemp
          subst hd
          refine ⟨indSet ind f0 [(c, .bucket [pkv])], ?_, ?_, ?_, ?_⟩
          · simp only [update_non_primary_index, hhash, Bool.not_true, Bool.false_eq_true,
              if_false, hind, List.isEmpty_nil, Bool.not_true]
          · intro v
            simp only [bucketLookup, indGet_set_self, hind]
            cases hcv : Value.pyEq c v with
            | true => rw [idxGet_cons_pos hcv]; rfl
            | false => rw [idxGet_cons_neg hcv]; rfl
          · intro f hf
            exact indGet_set_ne hf
          · intro fd hfd hne ve hve
            rcases mem_indSet hfd with ⟨h1, h2⟩ | hmem
            · rw [h2] at hve
              rcases List.mem_singleton.mp hve with rfl
              exact ⟨[pkv], rfl, by simp, by simpa using hP⟩
            · exact hwf fd hmem hne ve hve
      | false =>
          cases hget : idxGet d c with
          | none =>
              refine ⟨indSet ind f0 (idxSet d c (.bucket [pkv])), ?_, ?_, ?_, ?_⟩
              · simp only [update_non_primary_index, hhash, Bool.not_true,
                  Bool.false_eq_true, if_false, hind, hemp, Bool.not_false, if_true, hget]
              · intro v
                simp only [bucketLookup, indGet_set_self, hind]
                cases hcv : Value.pyEq c v with
                | true =>
                    rw [idxSet_get_eqk hcv]
                    have : idxGet d v = none := by rw [← idxGet_congr hcv, hget]
                    rw [this]
                    rfl
                | false =>
                    rw [idxSet_get_ne hcv]
                    simp
              · intro f hf
                exact indGet_set_ne hf
              · intro fd hfd hne ve hve
                rcases mem_indSet hfd with ⟨h1, h2⟩ | hmem
                · rw [h2] at hve
                  rcases mem_idxSet hve with h3 | h3
                  · exact ⟨[pkv], h3, by simp, by simpa using hP⟩
                  · exact hwf (f0, d) (indGet_some_mem hind) (h1 ▸ hne) ve h3
                · exact hwf fd hmem hne ve hve
          | some en =>
              obtain ⟨k0, hk0⟩ := idxGet_some_mem hget
              obtain ⟨b, hb, hbne, hbP⟩ :=
                hwf (f0, d) (indGet_some_mem hind) hf0 (k0, en) hk0
              simp only at hb
              subst hb
              have htr : Value.pyTruthy (entryVal (.bucket b)) = true := by
                simp [entryVal, Value.pyTruthy, hbne]
              refine ⟨indSet ind f0 (idxAppend d c pkv), ?_, ?_, ?_, ?_⟩
              · simp only [update_non_primary_index, hhash, Bool.not_true,
                  Bool.false_eq_true, if_false, hind, hemp, Bool.not_false, if_true,
                  hget, htr]
              · intro v
                simp only [bucketLookup, indGet_set_self, hind]
                cases hcv : Value.pyEq c v with
                | true =>
                    rw [idxAppend_get_eq hget hcv]
                    have : idxGet d v = some (.bucket b) := by
                      rw [← idxGet_congr hcv, hget]
                    rw [this]
                    simp
                | false =>
                    rw [idxAppend_get_ne hcv]
                    simp
              · intro f hf
                exact indGet_set_ne hf
              · intro fd hfd hne ve hve
                rcases mem_indSet hfd with ⟨h1, h2⟩ | hmem
                · rw [h2] at hve
                  rcases mem_idxAppend hve with ⟨k1, b0, hb1, hb2⟩ | h3
                  · obtain ⟨b', hb', hbne', hbP'⟩ :=
                      hwf (f0, d) (indGet_some_mem hind) (h1 ▸ hne) (k1, .bucket b0) hb2
                    simp only at hb'
                    have hbb : b0 = b' := by injection hb'
                    subst hbb
                    refine ⟨b0 ++ [pkv], by rw [hb1], by simp, ?_⟩
                    intro x hx
                    rcases List.mem_append.mp hx with hx1 | hx1
                    · exact hbP' x hx1
                    · rcases List.mem_singleton.mp hx1 with rfl
                      exact hP
                  · exact hwf (f0, d) (indGet_some_mem hind) (h1 ▸ hne) ve h3
                · exact hwf fd hmem hne ve hve

/-! ## The build invariant -/

/-- Invariant of the `_indices` table after successfully indexing the
batch prefix `rs` against the observed field set `ks`. -/
structure BuildInv (pk : String) (ks : List String) (rs : List Record)
    (ind : Indices) : Prop where
  primary : indGet ind pk = some (prevPrimary pk rs)
  buckets : ∀ f ∈ ks, f ≠ pk → ∀ v,
      bucketLookup ind f v = rs.flatMap (fun r => recContrib pk r f v)
  wf : IdxWF pk (fun x => ∃ r ∈ rs, x = pkVal pk r) ind
  valid : ∀ r ∈ rs, Value.pyIsNone (pkVal pk r) = false
  distinct : (rs.map (canonKey pk)).Nodup

/-- Invariant in the middle of the field loop of one data point `r`:
the fields in `ks1` have been processed, the rest have not. -/
structure FieldInv (pk : String) (ks : List String) (rs : List Record)
    (r : Record) (ks1 : List String) (ind : Indices) : Prop where
  primary : indGet ind pk = some (prevPrimary pk rs ++
      (if pk ∈ ks1 then [(.str (canonKey pk r), .record r)] else []))
  fresh : pk ∈ ks1 → canonKey pk r ∉ rs.map (canonKey pk)
  buckets : ∀ f ∈ ks, f ≠ pk → ∀ v,
      bucketLookup ind f v = rs.flatMap (fun r' => recContrib pk r' f v) ++
        (if f ∈ ks1 then recContrib pk r f v else [])
  wf : IdxWF pk (fun x => (∃ r' ∈ rs, x = pkVal pk r') ∨ x = pkVal pk r) ind

/-- Looking a canonical string up in the primary index finds the first
record of the batch with that canonical key. -/
theorem prevPrimary_get {pk : String} {rs : List Record} {s : String} :
    idxGet (prevPrimary pk rs) (.str s) =
      (rs.find? (fun r => canonKey pk r == s)).map .record := by
  induction rs with
  | nil => rfl
  | cons r0 rs ih =>
      by_cases h0 : canonKey pk r0 = s
      · have : Value.pyEq (.str (canonKey pk r0)) (.str s) = true := pyEq_str_iff.mpr h0
        rw [prevPrimary, List.map_cons, idxGet_cons_pos this, List.find?_cons_of_pos]
        · rfl
        · simp [h0]
      · have : Value.pyEq (.str (canonKey pk r0)) (.str s) = false := by
          cases hx : Value.pyEq (.str (canonKey pk r0)) (.str s) with
          | false => rfl
          | true => exact absurd (pyEq_str_iff.mp hx) h0
        rw [prevPrimary, List.map_cons, idxGet_cons_neg this, List.find?_cons_of_neg]
        · exact ih
        · simp [h0]

/-- A successful `__update_non_primary_index` call was given a hashable
key (the unhashable case raises `TypeError` up front). -/
theorem update_ok_hashable {ind ind' : Indices} {pkv c : Value} {f0 : String}
    (h : update_non_primary_index ind pkv f0 c = .ok ind') :
    Value.isHashable c = true := by
  cases hx : Value.isHashable c with
  | true => rfl
  | false =>
      rw [update_non_primary_index] at h
      rw [hx] at h
      simp at h

/-- Effect of the flattening loop `for sub_field in field_value` of
`_build_indices` on the bucket of each value. -/
theorem updates_fold_effect {pk f0 : String} {pkv : Value} {P : Value → Prop}
    (hf0 : f0 ≠ pk) (hP : P pkv) :
    ∀ (vs : List Value) (ind ind' : Indices), IdxWF pk P ind →
    vs.foldlM (fun acc sub_field =>
      update_non_primary_index acc pkv f0 sub_field) ind = .ok ind' →
    (∀ v, bucketLookup ind' f0 v = bucketLookup ind f0 v ++
        ((vs.filter (fun c => Value.pyEq c v)).map (fun _ => pkv))) ∧
    (∀ f, f ≠ f0 → indGet ind' f = indGet ind f) ∧
    IdxWF pk P ind' := by
  intro vs
  induction vs with
  | nil =>
      intro ind ind' hwf hok
      simp only [List.foldlM_nil] at hok
      cases hok
      exact ⟨fun v => by simp, fun f _ => rfl, hwf⟩
  | cons x vs ih =>
      intro ind ind' hwf hok
      simp only [List.foldlM_cons] at hok
      cases hupd : update_non_primary_index ind pkv f0 x with
      | error e =>
          rw [hupd] at hok
          exact Except.noConfusion hok
      | ok mid =>
          rw [hupd] at hok
          have hok2 : vs.foldlM (fun acc sub_field =>
              update_non_primary_index acc pkv f0 sub_field) mid = .ok ind' := hok
          have hx : Value.isHashable x = true := update_ok_hashable hupd
          obtain ⟨mid', hmid', hbkt, hoth, hwf'⟩ := update_effect hf0 hx hwf hP
          rw [hupd] at hmid'
          injection hmid' with hmm
          subst hmm
          obtain ⟨hbkt2, hoth2, hwf2⟩ := ih mid ind' hwf' hok2
          refine ⟨?_, fun f hf => (hoth2 f hf).trans (hoth f hf), hwf2⟩
          intro v
          rw [hbkt2 v, hbkt v]
          cases hcv : Value.pyEq x v with
          | true => simp [List.filter_cons, hcv]
          | false => simp [List.filter_cons, hcv]

theorem contribs_of_not_list {r : Record} {f0 : String} {fv : Value}
    (hfv : (recGet r f0).getD (.str "") = fv) (hnl : Value.isList fv = false) :
    contribs r f0 = [fv] := by
  unfold contribs
  rw [hfv]
  cases fv with
  | list xs => simp [Value.isList] at hnl
  | _ => rfl

theorem recContrib_single {pk : String} {r : Record} {f0 : String} {fv : Value}
    (hc : contribs r f0 = [fv]) (v : Value) :
    recContrib pk r f0 v =
      (if Value.pyEq fv v = true then [pkVal pk r] else []) := by
  rw [recContrib, hc]
  cases hcv : Value.pyEq fv v with
  | true => simp [List.filter_cons, hcv]
  | false => simp [List.filter_cons, hcv]

theorem bucketLookup_congr {ind ind' : Indices} {f : String}
    (h : indGet ind' f = indGet ind f) (v : Value) :
    bucketLookup ind' f v = bucketLookup ind f v := by
  unfold bucketLookup
  rw [h]

/-- Common wrap-up for processing a non-primary field: any operation
that appends exactly the record's contributions to `f0`'s buckets and
leaves other fields alone advances the mid-record invariant. -/
theorem fieldinv_step_nonpk {pk : String} {ks ks1 : List String} {rs : List Record}
    {r : Record} {ind ind' : Indices} {f0 : String}
    (hinv : FieldInv pk ks rs r ks1 ind)
    (hpk : f0 ≠ pk) (hnotin : f0 ∉ ks1)
    (hbkt : ∀ v, bucketLookup ind' f0 v = bucketLookup ind f0 v ++ recContrib pk r f0 v)
    (hoth : ∀ f, f ≠ f0 → indGet ind' f = indGet ind f)
    (hwf : IdxWF pk (fun x => (∃ r' ∈ rs, x = pkVal pk r') ∨ x = pkVal pk r) ind') :
    FieldInv pk ks rs r (ks1 ++ [f0]) ind' := by
  have hpkne : pk ≠ f0 := fun hc => hpk hc.symm
  have hiffpk : (pk ∈ ks1 ++ [f0]) ↔ pk ∈ ks1 := by
    simp [List.mem_append, hpkne]
  refine ⟨?_, ?_, ?_, hwf⟩
  · rw [hoth pk hpkne, hinv.primary]
    rw [if_congr hiffpk rfl rfl]
  · intro hmem
    exact hinv.fresh (hiffpk.mp hmem)
  · intro f hf hne v
    by_cases hff : f = f0
    · subst hff
      rw [hbkt v, hinv.buckets f hf hne v, if_neg hnotin,
        if_pos (by simp : f ∈ ks1 ++ [f])]
      simp
    · rw [bucketLookup_congr (hoth f hff) v, hinv.buckets f hf hne v]
      have hiff2 : (f ∈ ks1 ++ [f0]) ↔ f ∈ ks1 := by
        simp [List.mem_append, hff]
      rw [if_congr hiff2 rfl rfl]

/-- Processing a non-primary field whose contribution list is a single
value, by one `__update_non_primary_index` call. -/
theorem index_field_single {pk : String} {ks ks1 : List String} {rs : List Record}
    {r : Record} {ind ind' : Indices} {f0 : String} {c : Value}
    (hinv : FieldInv pk ks rs r ks1 ind)
    (hpk : f0 ≠ pk) (hnotin : f0 ∉ ks1)
    (hcon : contribs r f0 = [c])
    (hh : Value.isHashable c = true)
    (hok : update_non_primary_index ind (pkVal pk r) f0 c = .ok ind') :
    FieldInv pk ks rs r (ks1 ++ [f0]) ind' := by
  obtain ⟨ind'', heq, hbkt, hoth, hwf'⟩ :=
    update_effect hpk hh hinv.wf (Or.inr rfl)
  rw [heq] at hok
  injection hok with hee
  subst hee
  apply fieldinv_step_nonpk hinv hpk hnotin ?_ hoth hwf'
  intro v
  rw [hbkt v]
  congr 1
  rw [recContrib_single hcon v]

/-- One field-loop iteration of `_build_indices` preserves the
mid-record invariant, extending the processed prefix by that field. -/
theorem index_field_step {pk : String} {ks ks1 : List String} {rs : List Record}
    {r : Record} {ind ind' : Indices} {f0 : String}
    (hinv : FieldInv pk ks rs r ks1 ind)
    (hvalid : ∀ r' ∈ rs, Value.pyIsNone (pkVal pk r') = false)
    (hvr : Value.pyIsNone (pkVal pk r) = false)
    (hf0ks : f0 ∈ ks) (hnotin : f0 ∉ ks1)
    (hok : index_field pk r (pkVal pk r) ind f0 = .ok ind') :
    FieldInv pk ks rs r (ks1 ++ [f0]) ind' := by
  by_cases hpk : f0 = pk
  · have hpk2 : pk = f0 := hpk.symm
    subst hpk2
    have hfv : (recGet r pk).getD (.str "") = pkVal pk r := by
      obtain ⟨v, hv⟩ := recGet_some_of_valid hvr
      unfold pkVal
      rw [hv]
      rfl
    have hpkni : pk ∉ ks1 := hnotin
    have hprim : indGet ind pk = some (prevPrimary pk rs) := by
      have h1 := hinv.primary
      rw [if_neg hpkni] at h1
      simpa using h1
    simp only [index_field, if_pos rfl] at hok
    rw [hfv, hprim] at hok
    simp only [Option.getD_some] at hok
    have hck : Value.str (Value.pyStr (pkVal pk r)) = .str (canonKey pk r) := rfl
    rw [hck, prevPrimary_get] at hok
    cases hfind : rs.find? (fun r' => canonKey pk r' == canonKey pk r) with
    | some r1 =>
        rw [hfind] at hok
        have hr1 : r1 ∈ rs := List.mem_of_find?_eq_some hfind
        have htr := truthy_of_valid (hvalid r1 hr1)
        simp only [Option.map_some', htr, if_true] at hok
        exact Except.noConfusion hok
    | none =>
        rw [hfind] at hok
        simp only [Option.map_none'] at hok
        injection hok with hee
        have hgy : idxGet (prevPrimary pk rs) (.str (canonKey pk r)) = none := by
          rw [prevPrimary_get, hfind]
          rfl
        have hset := idxSet_of_get_none (v := Entry.record r) hgy
        have hfresh : canonKey pk r ∉ rs.map (canonKey pk) := by
          rw [List.find?_eq_none] at hfind
          intro hmem
          obtain ⟨r1, hr1, hcan⟩ := List.mem_map.mp hmem
          exact hfind r1 hr1 (by simp [hcan])
        refine ⟨?_, fun _ => hfresh, ?_, ?_⟩
        · rw [← hee, indGet_set_self, hset, if_pos (by simp)]
        · intro f hf hne v
          rw [← hee, bucketLookup_congr (indGet_set_ne hne) v,
            hinv.buckets f hf hne v]
          have hiff2 : (f ∈ ks1 ++ [pk]) ↔ f ∈ ks1 := by
            simp [List.mem_append, hne]
          rw [if_congr hiff2 rfl rfl]
        · intro fd hfd hne ve hve
          rw [← hee] at hfd
          rcases mem_indSet hfd with ⟨h1, h2⟩ | hmem
          · exact absurd h1 hne
          · exact hinv.wf fd hmem hne ve hve
  · simp only [index_field, if_neg hpk] at hok
    cases hfv : (recGet r f0).getD (.str "") with
    | str s =>
        rw [hfv] at hok
        simp only [Value.isHashable, Value.isList, Bool.not_true, Bool.not_false,
          Bool.false_and, Bool.false_eq_true, if_false] at hok
        exact index_field_single hinv hpk hnotin
          (contribs_of_not_list hfv rfl) rfl hok
    | int n =>
        rw [hfv] at hok
        simp only [Value.isHashable, Value.isList, Bool.not_true, Bool.not_false,
          Bool.false_and, Bool.false_eq_true, if_false] at hok
        exact index_field_single hinv hpk hnotin
          (contribs_of_not_list hfv rfl) rfl hok
    | bool b =>
        rw [hfv] at hok
        simp only [Value.isHashable, Value.isList, Bool.not_true, Bool.not_false,
          Bool.false_and, Bool.false_eq_true, if_false] at hok
        exact index_field_single hinv hpk hnotin
          (contribs_of_not_list hfv rfl) rfl hok
    | null =>
        rw [hfv] at hok
        simp only [Value.isHashable, Value.isList, Bool.not_true, Bool.not_false,
          Bool.false_and, Bool.false_eq_true, if_false] at hok
        exact index_field_single hinv hpk hnotin
          (contribs_of_not_list hfv rfl) rfl hok
    | dict kvs =>
        rw [hfv] at hok
        simp only [Value.isHashable, Value.isList, Bool.not_false, Bool.and_self,
          if_true] at hok
        exact Except.noConfusion hok
    | list vs =>
        rw [hfv] at hok
        simp only [Value.isHashable, Value.isList, Bool.not_true, Bool.not_false,
          Bool.and_false, Bool.false_eq_true, if_false] at hok
        by_cases hlen : vs.length = 0
        · rw [if_pos hlen] at hok
          have hvs : vs = [] := List.length_eq_zero.mp hlen
          have hcon : contribs r f0 = [.str ""] := by
            unfold contribs
            rw [hfv, hvs]
            rfl
          exact index_field_single hinv hpk hnotin hcon rfl hok
        · rw [if_neg hlen] at hok
          have hvs : vs ≠ [] := fun hc => hlen (by rw [hc]; rfl)
          obtain ⟨hbkt, hoth, hwf'⟩ :=
            updates_fold_effect hpk (Or.inr rfl) vs ind ind' hinv.wf hok
          apply fieldinv_step_nonpk hinv hpk hnotin ?_ hoth hwf'
          intro v
          rw [hbkt v]
          congr 1
          have hcon : contribs r f0 = vs := by
            unfold contribs
            rw [hfv]
            simp [hvs]
          rw [recContrib, hcon]

/-- The field loop of `_build_indices` carries the mid-record invariant
from the processed prefix to the full observed field set. -/
theorem index_fields_fold {pk : String} {ks : List String} {rs : List Record}
    {r : Record}
    (hnd : ks.Nodup)
    (hvalid : ∀ r' ∈ rs, Value.pyIsNone (pkVal pk r') = false)
    (hvr : Value.pyIsNone (pkVal pk r) = false) :
    ∀ (ks2 ks1 : List String) (ind ind' : Indices), ks = ks1 ++ ks2 →
    FieldInv pk ks rs r ks1 ind →
    ks2.foldlM (index_field pk r (pkVal pk r)) ind = .ok ind' →
    FieldInv pk ks rs r ks ind' := by
  intro ks2
  induction ks2 with
  | nil =>
      intro ks1 ind ind' hks hinv hok
      simp only [List.foldlM_nil] at hok
      injection hok with hee
      rw [List.append_nil] at hks
      subst hks
      rw [← hee]
      exact hinv
  | cons f0 ks2 ih =>
      intro ks1 ind ind' hks hinv hok
      simp only [List.foldlM_cons] at hok
      cases hstep : index_field pk r (pkVal pk r) ind f0 with
      | error e =>
          rw [hstep] at hok
          exact Except.noConfusion hok
      | ok mid =>
          rw [hstep] at hok
          have hok2 : ks2.foldlM (index_field pk r (pkVal pk r)) mid = .ok ind' := hok
          have hf0ks : f0 ∈ ks := by rw [hks]; simp
          have hnotin : f0 ∉ ks1 := by
            intro hmem
            rw [hks] at hnd
            have hdis := (List.nodup_append.mp hnd).2.2
            exact hdis hmem (List.mem_cons_self _ _)
          have hinv2 := index_field_step hinv hvalid hvr hf0ks hnotin hstep
          exact ih (ks1 ++ [f0]) mid ind' (by rw [hks]; simp) hinv2 hok2

/-- One outer-loop iteration of `_build_indices`: a successfully indexed
data point extends the build invariant by that record. -/
theorem index_data_point_step {pk : String} {ks : List String} {rs : List Record}
    {r : Record} {ind ind' : Indices}
    (hnd : ks.Nodup)
    (hinv : BuildInv pk ks rs ind)
    (hks : ∀ kv ∈ r, kv.1 ∈ ks)
    (hok : index_data_point pk ks ind r = .ok ind') :
    BuildInv pk ks (rs ++ [r]) ind' := by
  unfold index_data_point at hok
  cases hchk : check_for_mandatory_keys pk r with
  | error e =>
      rw [hchk] at hok
      exact Except.noConfusion hok
  | ok u =>
      rw [hchk] at hok
      have hvr : Value.pyIsNone (pkVal pk r) = false := by
        cases hx : Value.pyIsNone (pkVal pk r) with
        | false => rfl
        | true =>
            unfold check_for_mandatory_keys at hchk
            unfold pkVal at hx
            rw [hx] at hchk
            simp only [if_true] at hchk
            exact Except.noConfusion hchk
      have hok2 : ks.foldlM (index_field pk r (pkVal pk r)) ind = .ok ind' := hok
      have hinv0 : FieldInv pk ks rs r [] ind := by
        refine ⟨?_, ?_, ?_, hinv.wf.mono (fun x hx => Or.inl hx)⟩
        · rw [hinv.primary]
          simp
        · intro hmem
          simp at hmem
        · intro f hf hne v
          rw [hinv.buckets f hf hne v]
          simp
      have hfin := index_fields_fold hnd hinv.valid hvr ks [] ind ind'
        (by simp) hinv0 hok2
      have hpkks : pk ∈ ks := by
        obtain ⟨kv, hkv, hkv1⟩ := pk_key_mem_of_valid hvr
        rw [← hkv1]
        exact hks kv hkv
      refine ⟨?_, ?_, ?_, ?_, ?_⟩
      · rw [hfin.primary, if_pos hpkks]
        unfold prevPrimary
        rw [List.map_append]
        rfl
      · intro f hf hne v
        rw [hfin.buckets f hf hne v, if_pos hf, List.flatMap_append]
        simp
      · refine hfin.wf.mono (fun x hx => ?_)
        rcases hx with ⟨r', hr', hx⟩ | hx
        · exact ⟨r', List.mem_append_left _ hr', hx⟩
        · exact ⟨r, List.mem_append_right _ (List.mem_singleton.mpr rfl), hx⟩
      · intro r' hr'
        rcases List.mem_append.mp hr' with h1 | h1
        · exact hinv.valid r' h1
        · rw [List.mem_singleton.mp h1]
          exact hvr
      · rw [List.map_append]
        have hfr := hfin.fresh hpkks
        simp only [List.map_singleton]
        rw [List.nodup_append]
        refine ⟨hinv.distinct, List.nodup_singleton _, ?_⟩
        intro x hx hx2
        rw [List.mem_singleton.mp hx2] at hx
        exact hfr hx

/-- The outer loop of `_build_indices` carries the invariant across a
whole (suffix of a) batch. -/
theorem build_fold_inv {pk : String} {ks : List String} (hnd : ks.Nodup) :
    ∀ (rs2 rs1 : List Record) (ind ind' : Indices),
    BuildInv pk ks rs1 ind →
    (∀ r ∈ rs2, ∀ kv ∈ r, kv.1 ∈ ks) →
    rs2.foldlM (index_data_point pk ks) ind = .ok ind' →
    BuildInv pk ks (rs1 ++ rs2) ind' := by
  intro rs2
  induction rs2 with
  | nil =>
      intro rs1 ind ind' hinv hks hok
      simp only [List.foldlM_nil] at hok
      injection hok with hee
      rw [List.append_nil, ← hee]
      exact hinv
  | cons r rs2 ih =>
      intro rs1 ind ind' hinv hks hok
      simp only [List.foldlM_cons] at hok
      cases hstep : index_data_point pk ks ind r with
      | error e =>
          rw [hstep] at hok
          exact Except.noConfusion hok
      | ok mid =>
          rw [hstep] at hok
          have hok2 : rs2.foldlM (index_data_point pk ks) mid = .ok ind' := hok
          have hinv2 := index_data_point_step hnd hinv
            (hks r (List.mem_cons_self _ _)) hstep
          have := ih (rs1 ++ [r]) mid ind' hinv2
            (fun r' hr' => hks r' (List.mem_cons_of_mem _ hr')) hok2
          rw [List.append_assoc] at this
          simpa using this

theorem mem_insertKey_self {acc : List String} {k : String} :
    k ∈ insertKey acc k := by
  unfold insertKey
  by_cases h : k ∈ acc
  · rw [if_pos h]; exact h
  · rw [if_neg h]; simp

theorem mem_insertKey_of_mem {acc : List String} {k x : String}
    (h : x ∈ acc) : x ∈ insertKey acc k := by
  unfold insertKey
  by_cases hk : k ∈ acc
  · rw [if_pos hk]; exact h
  · rw [if_neg hk]; exact List.mem_append_left _ h

theorem insertKey_nodup {acc : List String} {k : String}
    (h : acc.Nodup) : (insertKey acc k).Nodup := by
  unfold insertKey
  by_cases hk : k ∈ acc
  · rw [if_pos hk]; exact h
  · rw [if_neg hk]
    rw [List.nodup_append]
    exact ⟨h, List.nodup_singleton _, fun x hx hx2 =>
      hk (by rw [← List.mem_singleton.mp hx2]; exact hx)⟩

theorem recFold_mem_of_mem {r : Record} :
    ∀ {acc : List String} {x : String}, x ∈ acc →
      x ∈ r.foldl (fun acc2 kv => insertKey acc2 kv.1) acc := by
  induction r with
  | nil => intro acc x h; exact h
  | cons kv r ih =>
      intro acc x h
      exact ih (mem_insertKey_of_mem h)

theorem recFold_mem_key {r : Record} :
    ∀ {acc : List String} {kv : String × Value}, kv ∈ r →
      kv.1 ∈ r.foldl (fun acc2 kv => insertKey acc2 kv.1) acc := by
  induction r with
  | nil => intro acc kv h; cases h
  | cons kv0 r ih =>
      intro acc kv h
      rcases List.mem_cons.mp h with h1 | h1
      · rw [h1, List.foldl_cons]
        exact recFold_mem_of_mem mem_insertKey_self
      · exact ih h1

theorem recFold_nodup {r : Record} :
    ∀ {acc : List String}, acc.Nodup →
      (r.foldl (fun acc2 kv => insertKey acc2 kv.1) acc).Nodup := by
  induction r with
  | nil => intro acc h; exact h
  | cons kv r ih => intro acc h; exact ih (insertKey_nodup h)

theorem unionKeys_cons {ks : List String} {r : Record} {data : List Record} :
    unionKeys ks (r :: data) =
      unionKeys (r.foldl (fun acc2 kv => insertKey acc2 kv.1) ks) data := rfl

theorem unionKeys_mem_of_mem {data : List Record} :
    ∀ {ks : List String} {x : String}, x ∈ ks → x ∈ unionKeys ks data := by
  induction data with
  | nil => intro ks x h; exact h
  | cons r data ih => intro ks x h; exact ih (recFold_mem_of_mem h)

theorem mem_unionKeys {data : List Record} :
    ∀ {ks : List String} {r : Record} {kv : String × Value},
      r ∈ data → kv ∈ r → kv.1 ∈ unionKeys ks data := by
  induction data with
  | nil => intro ks r kv h; cases h
  | cons r0 data ih =>
      intro ks r kv hr hkv
      rcases List.mem_cons.mp hr with h1 | h1
      · subst h1
        rw [unionKeys_cons]
        exact unionKeys_mem_of_mem (recFold_mem_key hkv)
      · exact ih h1 hkv

theorem unionKeys_nodup {data : List Record} :
    ∀ {ks : List String}, ks.Nodup → (unionKeys ks data).Nodup := by
  induction data with
  | nil => intro ks h; exact h
  | cons r data ih => intro ks h; exact ih (recFold_nodup h)

/-- Characterization of a fresh store after a successful ingestion: the
build invariant holds for the whole batch against the observed field
set, and the remaining state fields are as assigned. -/
theorem load_ok_inv {name pk : String} {rs : List Record} {e : Entity}
    (h : (Entity.init name pk).load_data_build_indices rs = .ok e) :
    BuildInv pk (unionKeys [] rs) rs e.indices ∧
    e.primary_key = pk ∧ e.data = rs ∧ e.keys_set = unionKeys [] rs ∧
    e.entity_name = name := by
  have hbase : BuildInv pk (unionKeys [] rs) [] [(pk, [])] := by
    refine ⟨indGet_cons_pos rfl, ?_, ?_, ?_, ?_⟩
    · intro f hf hne v
      unfold bucketLookup
      rw [indGet_cons_neg (fun hc => hne hc.symm)]
      rfl
    · intro fd hfd hne ve hve
      rw [List.mem_singleton.mp hfd] at hne
      exact absurd rfl hne
    · intro r hr; cases hr
    · exact List.nodup_nil
  have h2 : (build_indices pk (unionKeys [] rs) [(pk, [])] rs).bind
      (fun ind => Except.ok
        { entity_name := name, primary_key := pk, indices := ind,
          data := rs, keys_set := unionKeys [] rs }) =
      Except.ok e := h
  cases hb : build_indices pk (unionKeys [] rs) [(pk, [])] rs with
  | error e0 =>
      rw [hb] at h2
      exact Except.noConfusion h2
  | ok ind =>
      rw [hb] at h2
      have h3 : Except.ok
          ({ entity_name := name, primary_key := pk, indices := ind,
             data := rs, keys_set := unionKeys [] rs } : Entity) =
          Except.ok e := h2
      injection h3 with hee
      have hinv : BuildInv pk (unionKeys [] rs) rs ind := by
        unfold build_indices at hb
        by_cases hrs : rs = []
        · subst hrs
          rw [if_pos rfl] at hb
          injection hb with hbb
          rw [← hbb]
          exact hbase
        · rw [if_neg hrs] at hb
          have := build_fold_inv (unionKeys_nodup List.nodup_nil) rs [] [(pk, [])]
            ind hbase (fun r hr kv hkv => mem_unionKeys hr hkv) hb
          simpa using this
      rw [← hee]
      exact ⟨hinv, rfl, rfl, rfl, rfl⟩

/-! ## Consequences for queries -/

/-- In a batch with pairwise-distinct canonical keys, the primary-index
search finds exactly the member with the queried canonical key. -/
theorem find_canon_eq {pk s : String} {rs : List Record} {r : Record}
    (hd : (rs.map (canonKey pk)).Nodup) (hr : r ∈ rs) (hs : canonKey pk r = s) :
    rs.find? (fun r' => canonKey pk r' == s) = some r := by
  induction rs with
  | nil => cases hr
  | cons r0 rs ih =>
      by_cases h0 : canonKey pk r0 = s
      · rw [List.find?_cons_of_pos _ (by simp [h0])]
        rcases List.mem_cons.mp hr with h1 | h1
        · rw [h1]
        · exfalso
          have : canonKey pk r ∈ rs.map (canonKey pk) := List.mem_map_of_mem _ h1
          rw [hs, ← h0] at this
          exact (List.nodup_cons.mp (by simpa using hd)).1 this
      · rw [List.find?_cons_of_neg _ (by simp [h0])]
        rcases List.mem_cons.mp hr with h1 | h1
        · exact absurd (h1 ▸ hs) h0
        · exact ih (List.nodup_cons.mp (by simpa using hd)).2 h1
  
theorem filterMap_congr_mem {α β : Type} {g1 g2 : α → Option β} :
    ∀ {l : List α}, (∀ a ∈ l, g1 a = g2 a) → l.filterMap g1 = l.filterMap g2 := by
  intro l
  induction l with
  | nil => intro h; rfl
  | cons a l ih =>
      intro h
      rw [List.filterMap_cons, List.filterMap_cons,
        h a (List.mem_cons_self _ _), ih (fun x hx => h x (List.mem_cons_of_mem _ hx))]

theorem filterMap_eq_map_of {α β : Type} {g : α → Option β} {m : α → β} :
    ∀ {l : List α}, (∀ a ∈ l, g a = some (m a)) → l.filterMap g = l.map m := by
  intro l
  induction l with
  | nil => intro h; rfl
  | cons a l ih =>
      intro h
      rw [List.filterMap_cons, h a (List.mem_cons_self _ _), List.map_cons,
        ih (fun x hx => h x (List.mem_cons_of_mem _ hx))]

/-- `get_data_from_primary_keys` on a list argument, over a
successfully built store: each key finds (a deep copy of) the first —
hence, by key uniqueness, the only — record with its canonical form,
and unmatched keys are dropped. -/
theorem load_get_data_list {name pk : String} {rs : List Record} {e : Entity}
    (h : (Entity.init name pk).load_data_build_indices rs = .ok e)
    (ks : List Value) :
    e.get_data_from_primary_keys (.list ks) =
      ks.filterMap (fun k =>
        (rs.find? (fun r => canonKey pk r == Value.pyStr k)).map Value.dict) := by
  obtain ⟨hinv, hpk, -, -, -⟩ := load_ok_inv h
  unfold Entity.get_data_from_primary_keys
  rw [hpk, hinv.primary]
  simp only [Option.getD_some]
  apply filterMap_congr_mem
  intro k hk
  rw [prevPrimary_get]
  cases hfind : rs.find? (fun r' => canonKey pk r' == Value.pyStr k) with
  | none => rfl
  | some r1 =>
      have hr1 : r1 ∈ rs := List.mem_of_find?_eq_some hfind
      have htr := truthy_of_valid (hinv.valid r1 hr1)
      simp only [Option.map_some', entryVal]
      rw [if_pos (show (Value.dict r1).pyTruthy = true from htr), Value.deepCopy_eq]

/-- A non-list key argument is normalized to the one-element list of
itself. -/
theorem get_data_scalar_eq_singleton {e : Entity} {k : Value}
    (hk : Value.isList k = false) :
    e.get_data_from_primary_keys k = e.get_data_from_primary_keys (.list [k]) := by
  cases k with
  | list xs => simp [Value.isList] at hk
  | str s => rfl
  | int n => rfl
  | bool b => rfl
  | null => rfl
  | dict kvs => rfl

theorem key_mem_of_recGet_some {r : Record} {f : String} {v : Value}
    (h : recGet r f = some v) : ∃ kv ∈ r, kv.1 = f := by
  simp only [recGet] at h
  cases hfind : List.find? (fun kv => kv.1 == f) r with
  | none => rw [hfind] at h; cases h
  | some kv =>
      have hm := List.mem_of_find?_eq_some hfind
      have hp := List.find?_some hfind
      exact ⟨kv, hm, by simpa using hp⟩

theorem count_map_const {l : List Value} {c : Value} :
    (l.map (fun _ => c)).count c = l.length := by
  induction l with
  | nil => rfl
  | cons x l ih => simp [List.count_cons_self, ih]

theorem count_contrib_ne {pk : String} {r' : Record} {f : String} {v x : Value}
    (hx : x ≠ pkVal pk r') : (recContrib pk r' f v).count x = 0 := by
  rw [List.count_eq_zero]
  intro hmem
  unfold recContrib at hmem
  obtain ⟨c, -, hc⟩ := List.mem_map.mp hmem
  exact hx hc.symm

/-- In a batch with pairwise-distinct canonical keys, all copies of a
record's primary key in a bucket come from that record alone. -/
theorem count_flatMap_contrib {pk f : String} {v : Value} {r : Record} :
    ∀ {rs : List Record}, (rs.map (canonKey pk)).Nodup → r ∈ rs →
    (rs.flatMap (fun r' => recContrib pk r' f v)).count (pkVal pk r) =
      (recContrib pk r f v).length := by
  intro rs
  induction rs with
  | nil => intro _ h; cases h
  | cons r0 rs ih =>
      intro hd hr
      rw [List.map_cons, List.nodup_cons] at hd
      rw [List.flatMap_cons, List.count_append]
      rcases List.mem_cons.mp hr with h1 | h1
      · subst h1
        have hc1 : (recContrib pk r f v).count (pkVal pk r) =
            (recContrib pk r f v).length := by
          unfold recContrib
          rw [List.length_map]
          exact count_map_const
        have hc2 : (rs.flatMap (fun r' => recContrib pk r' f v)).count (pkVal pk r) = 0 := by
          rw [List.count_eq_zero]
          intro hmem
          obtain ⟨r', hr', hx⟩ := List.mem_flatMap.mp hmem
          unfold recContrib at hx
          obtain ⟨c, -, hc⟩ := List.mem_map.mp hx
          have hpv : canonKey pk r = canonKey pk r' := by
            unfold canonKey
            rw [hc]
          exact hd.1 (hpv ▸ List.mem_map_of_mem (canonKey pk) hr')
        rw [hc1, hc2]
        omega
      · have hc1 : (recContrib pk r0 f v).count (pkVal pk r) = 0 := by
          apply count_contrib_ne
          intro hc
          have : canonKey pk r = canonKey pk r0 := by
            unfold canonKey
            rw [hc]
          exact hd.1 (this ▸ List.mem_map_of_mem (canonKey pk) h1)
        rw [hc1, ih hd.2 h1]
        omega

/-- C1 (amended): for a successfully ingested batch, any non-list key
whose canonical string form equals that of an ingested record's primary
key retrieves exactly that record, and a list of keys retrieves the
matched records in input order with duplicates preserved.  (A key that
is itself a list is reinterpreted as a list of keys, see
`c1_counterexample`.) -/
theorem c1_get_by_primary_key {name pk : String} {rs : List Record} {e : Entity}
    (h : (Entity.init name pk).load_data_build_indices rs = .ok e) :
    (∀ k r, Value.isList k = false → r ∈ rs → Value.pyStr k = canonKey pk r →
      e.get_data_from_primary_keys k = [.dict r]) ∧
    (∀ (ks : List Value) (f : Value → Record),
      (∀ k ∈ ks, f k ∈ rs ∧ Value.pyStr k = canonKey pk (f k)) →
      e.get_data_from_primary_keys (.list ks) = ks.map (fun k => .dict (f k))) := by
  obtain ⟨hinv, -, -, -, -⟩ := load_ok_inv h
  constructor
  · intro k r hkl hr hks
    rw [get_data_scalar_eq_singleton hkl, load_get_data_list h [k]]
    simp only [List.filterMap_cons, List.filterMap_nil]
    rw [find_canon_eq hinv.distinct hr hks.symm]
    rfl
  · intro ks f hf
    rw [load_get_data_list h ks]
    apply filterMap_eq_map_of
    intro k hk
    rw [find_canon_eq hinv.distinct (hf k hk).1 ((hf k hk).2).symm]
    rfl

/-- C1, counterexample to the claim as stated: the key `[1]` has the
same canonical string form (`"[1]"`) as the ingested record's primary
key, yet `get_data_from_primary_keys([1])` treats the list as a list of
keys and returns nothing rather than the record. -/
theorem c1_counterexample :
    ((Entity.init "user" "_id").load_data_build_indices
        [[("_id", Value.list [.int 1])]]).map
      (fun e => e.get_data_from_primary_keys (.list [.int 1])) = .ok [] ∧
    Value.pyStr (.list [.int 1]) =
      Value.pyStr (pkVal "_id" [("_id", Value.list [.int 1])]) :=
  ⟨rfl, rfl⟩

/-- C1, witness: a concrete two-record store where a repeated key list
`[2, 1, 2]` returns the matched records in order with the duplicate
preserved, and a single scalar key returns exactly its record. -/
theorem c1_witness :
    (Entity.init "user" "_id").load_data_build_indices
        [[("_id", Value.int 1), ("name", Value.str "one")], [("_id", Value.int 2)]] =
      .ok ⟨"user", "_id",
        [("_id", [(.str "1", .record [("_id", .int 1), ("name", .str "one")]),
                  (.str "2", .record [("_id", .int 2)])]),
         ("name", [(.str "one", .bucket [.int 1]), (.str "", .bucket [.int 2])])],
        [[("_id", .int 1), ("name", .str "one")], [("_id", .int 2)]],
        ["_id", "name"]⟩ ∧
    (⟨"user", "_id",
        [("_id", [(.str "1", .record [("_id", .int 1), ("name", .str "one")]),
                  (.str "2", .record [("_id", .int 2)])]),
         ("name", [(.str "one", .bucket [.int 1]), (.str "", .bucket [.int 2])])],
        [[("_id", .int 1), ("name", .str "one")], [("_id", .int 2)]],
        ["_id", "name"]⟩ : Entity).get_data_from_primary_keys
        (.list [.int 2, .int 1, .int 2]) =
      [.dict [("_id", .int 2)],
       .dict [("_id", .int 1), ("name", .str "one")],
       .dict [("_id", .int 2)]] ∧
    (⟨"user", "_id",
        [("_id", [(.str "1", .record [("_id", .int 1), ("name", .str "one")]),
                  (.str "2", .record [("_id", .int 2)])]),
         ("name", [(.str "one", .bucket [.int 1]), (.str "", .bucket [.int 2])])],
        [[("_id", .int 1), ("name", .str "one")], [("_id", .int 2)]],
        ["_id", "name"]⟩ : Entity).get_data_from_primary_keys (.int 1) =
      [.dict [("_id", .int 1), ("name", .str "one")]] := by
  have hload : (Entity.init "user" "_id").load_data_build_indices
      [[("_id", Value.int 1), ("name", Value.str "one")], [("_id", Value.int 2)]] =
      .ok ⟨"user", "_id",
        [("_id", [(.str "1", .record [("_id", .int 1), ("name", .str "one")]),
                  (.str "2", .record [("_id", .int 2)])]),
         ("name", [(.str "one", .bucket [.int 1]), (.str "", .bucket [.int 2])])],
        [[("_id", .int 1), ("name", .str "one")], [("_id", .int 2)]],
        ["_id", "name"]⟩ := rfl
  refine ⟨hload, ?_, ?_⟩
  · have h2 := (c1_get_by_primary_key hload).2 [.int 2, .int 1, .int 2]
      (fun k => if k = .int 2 then [("_id", Value.int 2)]
        else [("_id", Value.int 1), ("name", Value.str "one")])
      (by decide)
    rw [h2]
    rfl
  · have h1 := (c1_get_by_primary_key hload).1 (.int 1)
      [("_id", Value.int 1), ("name", Value.str "one")] rfl
      (by decide) rfl
    rw [h1]

/-- C2: every record of a successfully ingested batch is indexed
against the whole observed field set, with `""` substituted for a field
the record lacks: its primary key lands in that field's `""` bucket. -/
theorem c2_missing_field_default {name pk : String} {rs : List Record} {e : Entity}
    (h : (Entity.init name pk).load_data_build_indices rs = .ok e)
    {f : String} {r : Record}
    (hf : f ∈ unionKeys [] rs) (hne : f ≠ pk) (hr : r ∈ rs)
    (hmiss : recGet r f = none) :
    pkVal pk r ∈ bucketLookup e.indices f (.str "") := by
  obtain ⟨hinv, -, -, -, -⟩ := load_ok_inv h
  rw [hinv.buckets f hf hne (.str "")]
  apply List.mem_flatMap.mpr
  refine ⟨r, hr, ?_⟩
  unfold recContrib
  have hc : contribs r f = [.str ""] := by
    unfold contribs
    rw [hmiss]
    rfl
  rw [hc]
  simp [Value.pyEq_refl]

/-- C2, witness: the spec's example — the record without `name` gets a
`"" → [2]` entry in the `name` index, alongside `"one" → [1]`. -/
theorem c2_witness :
    (Entity.init "user" "_id").load_data_build_indices
      [[("_id", Value.int 1), ("name", Value.str "one")], [("_id", Value.int 2)]] =
      .ok ⟨"user", "_id",
        [("_id", [(.str "1", .record [("_id", .int 1), ("name", .str "one")]),
                  (.str "2", .record [("_id", .int 2)])]),
         ("name", [(.str "one", .bucket [.int 1]), (.str "", .bucket [.int 2])])],
        [[("_id", .int 1), ("name", .str "one")], [("_id", .int 2)]],
        ["_id", "name"]⟩ ∧
    Value.int 2 ∈ bucketLookup
      [("_id", [(.str "1", Entry.record [("_id", .int 1), ("name", .str "one")]),
                (.str "2", Entry.record [("_id", .int 2)])]),
       ("name", [(.str "one", Entry.bucket [.int 1]), (.str "", Entry.bucket [.int 2])])]
      "name" (.str "") ∧
    bucketLookup
      [("_id", [(.str "1", Entry.record [("_id", .int 1), ("name", .str "one")]),
                (.str "2", Entry.record [("_id", .int 2)])]),
       ("name", [(.str "one", Entry.bucket [.int 1]), (.str "", Entry.bucket [.int 2])])]
      "name" (.str "one") = [.int 1] := by
  have hload : (Entity.init "user" "_id").load_data_build_indices
      [[("_id", Value.int 1), ("name", Value.str "one")], [("_id", Value.int 2)]] =
      .ok ⟨"user", "_id",
        [("_id", [(.str "1", .record [("_id", .int 1), ("name", .str "one")]),
                  (.str "2", .record [("_id", .int 2)])]),
         ("name", [(.str "one", .bucket [.int 1]), (.str "", .bucket [.int 2])])],
        [[("_id", .int 1), ("name", .str "one")], [("_id", .int 2)]],
        ["_id", "name"]⟩ := rfl
  refine ⟨hload, ?_, rfl⟩
  have h2 := c2_missing_field_default hload (f := "name")
    (r := [("_id", Value.int 2)]) (by decide) (by decide) (by decide) rfl
  exact h2

/-- C4: a list-valued field is flattened — the record's primary key
appears in the bucket of a value `v` exactly once per list element
`pyEq`-equal to `v`, and an empty list contributes the single value
`""`. -/
theorem c4_list_field_flattened {name pk : String} {rs : List Record} {e : Entity}
    (h : (Entity.init name pk).load_data_build_indices rs = .ok e)
    {f : String} {r : Record} {vs : List Value}
    (hne : f ≠ pk) (hr : r ∈ rs) (hval : recGet r f = some (.list vs)) :
    ∀ v, (bucketLookup e.indices f v).count (pkVal pk r) =
      ((if vs = [] then [Value.str ""] else vs).countP (fun c => Value.pyEq c v)) := by
  obtain ⟨hinv, -, -, -, -⟩ := load_ok_inv h
  intro v
  have hfks : f ∈ unionKeys [] rs := by
    obtain ⟨kv, hkv, hkv1⟩ := key_mem_of_recGet_some hval
    rw [← hkv1]
    exact mem_unionKeys hr hkv
  rw [hinv.buckets f hfks hne v, count_flatMap_contrib hinv.distinct hr]
  unfold recContrib
  rw [List.length_map, List.countP_eq_length_filter]
  have hc : contribs r f = if vs = [] then [Value.str ""] else vs := by
    unfold contribs
    rw [hval]
    rfl
  rw [hc]

/-- C4, witness: three tag values (one repeated) yield three bucket
entries for the same primary key, and an empty tag list yields the
single `""` entry. -/
theorem c4_witness :
    (Entity.init "ticket" "_id").load_data_build_indices
      [[("_id", Value.int 1), ("tags", Value.list [.str "a", .str "b", .str "a"])],
       [("_id", Value.int 2), ("tags", Value.list [])]] =
      .ok ⟨"ticket", "_id",
        [("_id",
          [(.str "1", .record [("_id", .int 1), ("tags", .list [.str "a", .str "b", .str "a"])]),
           (.str "2", .record [("_id", .int 2), ("tags", .list [])])]),
         ("tags",
          [(.str "a", .bucket [.int 1, .int 1]), (.str "b", .bucket [.int 1]),
           (.str "", .bucket [.int 2])])],
        [[("_id", .int 1), ("tags", .list [.str "a", .str "b", .str "a"])],
         [("_id", .int 2), ("tags", .list [])]],
        ["_id", "tags"]⟩ ∧
    (bucketLookup
      [("_id",
        [(.str "1", Entry.record [("_id", .int 1), ("tags", .list [.str "a", .str "b", .str "a"])]),
         (.str "2", Entry.record [("_id", .int 2), ("tags", .list [])])]),
       ("tags",
        [(.str "a", Entry.bucket [.int 1, .int 1]), (.str "b", Entry.bucket [.int 1]),
         (.str "", Entry.bucket [.int 2])])]
      "tags" (.str "a")).count (.int 1) = 2 ∧
    (bucketLookup
      [("_id",
        [(.str "1", Entry.record [("_id", .int 1), ("tags", .list [.str "a", .str "b", .str "a"])]),
         (.str "2", Entry.record [("_id", .int 2), ("tags", .list [])])]),
       ("tags",
        [(.str "a", Entry.bucket [.int 1, .int 1]), (.str "b", Entry.bucket [.int 1]),
         (.str "", Entry.bucket [.int 2])])]
      "tags" (.str "")).count (.int 2) = 1 := by
  have hload : (Entity.init "ticket" "_id").load_data_build_indices
      [[("_id", Value.int 1), ("tags", Value.list [.str "a", .str "b", .str "a"])],
       [("_id", Value.int 2), ("tags", Value.list [])]] =
      .ok ⟨"ticket", "_id",
        [("_id",
          [(.str "1", .record [("_id", .int 1), ("tags", .list [.str "a", .str "b", .str "a"])]),
           (.str "2", .record [("_id", .int 2), ("tags", .list [])])]),
         ("tags",
          [(.str "a", .bucket [.int 1, .int 1]), (.str "b", .bucket [.int 1]),
           (.str "", .bucket [.int 2])])],
        [[("_id", .int 1), ("tags", .list [.str "a", .str "b", .str "a"])],
         [("_id", .int 2), ("tags", .list [])]],
        ["_id", "tags"]⟩ := rfl
  refine ⟨hload, ?_, ?_⟩
  · have h4 := c4_list_field_flattened hload (f := "tags")
      (r := [("_id", Value.int 1), ("tags", Value.list [.str "a", .str "b", .str "a"])])
      (by decide) (by decide) rfl (.str "a")
    exact h4.trans rfl
  · have h4 := c4_list_field_flattened hload (f := "tags")
      (r := [("_id", Value.int 2), ("tags", Value.list [])])
      (by decide) (by decide) rfl (.str "")
    exact h4.trans rfl

/-- C6: keys with no canonical-form match in the primary index —
`None`, `""`, or any unmatched key — are silently dropped from the
result: removing such a key from the input leaves the result unchanged. -/
theorem c6_unmatched_keys_skipped {name pk : String} {rs : List Record} {e : Entity}
    (h : (Entity.init name pk).load_data_build_indices rs = .ok e)
    (k : Value) (hk : ∀ r ∈ rs, canonKey pk r ≠ Value.pyStr k)
    (ks1 ks2 : List Value) :
    e.get_data_from_primary_keys (.list (ks1 ++ k :: ks2)) =
      e.get_data_from_primary_keys (.list (ks1 ++ ks2)) := by
  rw [load_get_data_list h, load_get_data_list h,
    List.filterMap_append, List.filterMap_append]
  have hfind : rs.find? (fun r => canonKey pk r == Value.pyStr k) = none := by
    rw [List.find?_eq_none]
    intro r hr
    simp [hk r hr]
  simp only [List.filterMap_cons]
  rw [hfind]
  rfl

/-- C6, witness: `None`, the empty string and an absent numeric key
each contribute nothing to the retrieved sequence. -/
theorem c6_witness :
    (Entity.init "user" "_id").load_data_build_indices
      [[("_id", Value.int 1), ("name", Value.str "one")], [("_id", Value.int 2)]] =
      .ok ⟨"user", "_id",
        [("_id", [(.str "1", .record [("_id", .int 1), ("name", .str "one")]),
                  (.str "2", .record [("_id", .int 2)])]),
         ("name", [(.str "one", .bucket [.int 1]), (.str "", .bucket [.int 2])])],
        [[("_id", .int 1), ("name", .str "one")], [("_id", .int 2)]],
        ["_id", "name"]⟩ ∧
    (⟨"user", "_id",
        [("_id", [(.str "1", .record [("_id", .int 1), ("name", .str "one")]),
                  (.str "2", .record [("_id", .int 2)])]),
         ("name", [(.str "one", .bucket [.int 1]), (.str "", .bucket [.int 2])])],
        [[("_id", .int 1), ("name", .str "one")], [("_id", .int 2)]],
        ["_id", "name"]⟩ : Entity).get_data_from_primary_keys
        (.list [.int 1, .null, .int 2]) =
      (⟨"user", "_id",
        [("_id", [(.str "1", .record [("_id", .int 1), ("name", .str "one")]),
                  (.str "2", .record [("_id", .int 2)])]),
         ("name", [(.str "one", .bucket [.int 1]), (.str "", .bucket [.int 2])])],
        [[("_id", .int 1), ("name", .str "one")], [("_id", .int 2)]],
        ["_id", "name"]⟩ : Entity).get_data_from_primary_keys
        (.list [.int 1, .int 2]) ∧
    (⟨"user", "_id",
        [("_id", [(.str "1", .record [("_id", .int 1), ("name", .str "one")]),
                  (.str "2", .record [("_id", .int 2)])]),
         ("name", [(.str "one", .bucket [.int 1]), (.str "", .bucket [.int 2])])],
        [[("_id", .int 1), ("name", .str "one")], [("_id", .int 2)]],
        ["_id", "name"]⟩ : Entity).get_data_from_primary_keys
        (.list [.str "", .int 1]) =
      (⟨"user", "_id",
        [("_id", [(.str "1", .record [("_id", .int 1), ("name", .str "one")]),
                  (.str "2", .record [("_id", .int 2)])]),
         ("name", [(.str "one", .bucket [.int 1]), (.str "", .bucket [.int 2])])],
        [[("_id", .int 1), ("name", .str "one")], [("_id", .int 2)]],
        ["_id", "name"]⟩ : Entity).get_data_from_primary_keys
        (.list [.int 1]) := by
  have hload : (Entity.init "user" "_id").load_data_build_indices
      [[("_id", Value.int 1), ("name", Value.str "one")], [("_id", Value.int 2)]] =
      .ok ⟨"user", "_id",
        [("_id", [(.str "1", .record [("_id", .int 1), ("name", .str "one")]),
                  (.str "2", .record [("_id", .int 2)])]),
         ("name", [(.str "one", .bucket [.int 1]), (.str "", .bucket [.int 2])])],
        [[("_id", .int 1), ("name", .str "one")], [("_id", .int 2)]],
        ["_id", "name"]⟩ := rfl
  refine ⟨hload, ?_, ?_⟩
  · exact c6_unmatched_keys_skipped hload .null (by decide) [.int 1] [.int 2]
  · exact c6_unmatched_keys_skipped hload (.str "") (by decide) [] [.int 1]

/-- C10 (implicit invariant): after a successful ingestion, every
element of every secondary-index bucket canonicalizes to a key of the
primary index and so resolves to exactly one stored record of the
batch. -/
theorem c10_buckets_resolve {name pk : String} {rs : List Record} {e : Entity}
    (h : (Entity.init name pk).load_data_build_indices rs = .ok e) :
    ∀ fd ∈ e.indices, fd.1 ≠ pk → ∀ ve ∈ fd.2, ∀ b, ve.2 = Entry.bucket b →
    ∀ x ∈ b, ∃ r, r ∈ rs ∧
      idxGet ((indGet e.indices pk).getD []) (.str (Value.pyStr x)) =
        some (.record r) := by
  obtain ⟨hinv, -, -, -, -⟩ := load_ok_inv h
  intro fd hfd hne ve hve b hb x hx
  obtain ⟨b', hb', hbne, hbP⟩ := hinv.wf fd hfd hne ve hve
  rw [hb] at hb'
  injection hb' with hbb
  subst hbb
  obtain ⟨r, hr, hx2⟩ := hbP x hx
  refine ⟨r, hr, ?_⟩
  rw [hinv.primary]
  simp only [Option.getD_some]
  rw [hx2]
  show idxGet (prevPrimary pk rs) (.str (canonKey pk r)) = some (.record r)
  rw [prevPrimary_get, find_canon_eq hinv.distinct hr rfl]
  rfl

/-- C10, witness: in a concrete store, the `name` bucket element `1`
resolves through the primary index. -/
theorem c10_witness :
    (Entity.init "user" "_id").load_data_build_indices
      [[("_id", Value.int 1), ("name", Value.str "one")], [("_id", Value.int 2)]] =
      .ok ⟨"user", "_id",
        [("_id", [(.str "1", .record [("_id", .int 1), ("name", .str "one")]),
                  (.str "2", .record [("_id", .int 2)])]),
         ("name", [(.str "one", .bucket [.int 1]), (.str "", .bucket [.int 2])])],
        [[("_id", .int 1), ("name", .str "one")], [("_id", .int 2)]],
        ["_id", "name"]⟩ ∧
    (idxGet ((indGet
        [("_id", [(.str "1", Entry.record [("_id", .int 1), ("name", .str "one")]),
                  (.str "2", Entry.record [("_id", .int 2)])]),
         ("name", [(.str "one", Entry.bucket [.int 1]), (.str "", Entry.bucket [.int 2])])]
        "_id").getD []) (.str (Value.pyStr (.int 1)))).isSome = true := by
  have hload : (Entity.init "user" "_id").load_data_build_indices
      [[("_id", Value.int 1), ("name", Value.str "one")], [("_id", Value.int 2)]] =
      .ok ⟨"user", "_id",
        [("_id", [(.str "1", .record [("_id", .int 1), ("name", .str "one")]),
                  (.str "2", .record [("_id", .int 2)])]),
         ("name", [(.str "one", .bucket [.int 1]), (.str "", .bucket [.int 2])])],
        [[("_id", .int 1), ("name", .str "one")], [("_id", .int 2)]],
        ["_id", "name"]⟩ := rfl
  refine ⟨hload, ?_⟩
  obtain ⟨r, hr, heq⟩ := c10_buckets_resolve hload
    ("name", [(.str "one", Entry.bucket [.int 1]), (.str "", Entry.bucket [.int 2])])
    (by decide) (by decide)
    (.str "one", Entry.bucket [.int 1]) (by decide)
    [.int 1] rfl (.int 1) (by decide)
  rw [heq]
  rfl

/-! ## Success and failure of ingestion -/

/-- A field value the indexer accepts for a non-primary field: hashable
as-is, or a list (flattened) whose elements are hashable. -/
def indexableValue : Value → Bool
  | .list vs => vs.all Value.isHashable
  | v => Value.isHashable v

theorem kv_mem_of_recGet_some {r : Record} {f : String} {v : Value}
    (h : recGet r f = some v) : ∃ kv ∈ r, kv.1 = f ∧ kv.2 = v := by
  simp only [recGet] at h
  cases hfind : List.find? (fun kv => kv.1 == f) r with
  | none => rw [hfind] at h; cases h
  | some kv =>
      have hm := List.mem_of_find?_eq_some hfind
      have hp := List.find?_some hfind
      rw [hfind] at h
      injection h with h2
      exact ⟨kv, hm, by simpa using hp, h2⟩

/-- The flattening loop succeeds whenever every element is hashable. -/
theorem updates_fold_ok {pk f0 : String} {pkv : Value} {P : Value → Prop}
    (hf0 : f0 ≠ pk) (hP : P pkv) :
    ∀ (vs : List Value) (ind : Indices), IdxWF pk P ind →
    (∀ x ∈ vs, Value.isHashable x = true) →
    ∃ ind', vs.foldlM (fun acc sub_field =>
      update_non_primary_index acc pkv f0 sub_field) ind = .ok ind' := by
  intro vs
  induction vs with
  | nil => intro ind hwf _; exact ⟨ind, rfl⟩
  | cons x vs ih =>
      intro ind hwf hall
      obtain ⟨mid, hmid, -, -, hwf2⟩ :=
        update_effect hf0 (hall x (List.mem_cons_self _ _)) hwf hP
      obtain ⟨ind', hind'⟩ := ih mid hwf2 (fun y hy => hall y (List.mem_cons_of_mem _ hy))
      refine ⟨ind', ?_⟩
      simp only [List.foldlM_cons]
      rw [hmid]
      exact hind'

/-- One field-loop iteration succeeds when the record passed validation,
the field's value is indexable (for a non-primary field), and — when the
field is the primary key — the record's canonical key is fresh. -/
theorem index_field_ok {pk : String} {ks ks1 : List String} {rs : List Record}
    {r : Record} {ind : Indices} {f0 : String}
    (hinv : FieldInv pk ks rs r ks1 ind)
    (hvr : Value.pyIsNone (pkVal pk r) = false)
    (hnotin : f0 ∉ ks1)
    (hfresh : f0 = pk → canonKey pk r ∉ rs.map (canonKey pk))
    (hcleanf : ∀ kv ∈ r, kv.1 = f0 → kv.1 ≠ pk → indexableValue kv.2 = true) :
    ∃ ind', index_field pk r (pkVal pk r) ind f0 = .ok ind' := by
  by_cases hpk : f0 = pk
  · have hpk2 : pk = f0 := hpk.symm
    subst hpk2
    have hfv : (recGet r pk).getD (.str "") = pkVal pk r := by
      obtain ⟨v, hv⟩ := recGet_some_of_valid hvr
      unfold pkVal
      rw [hv]
      rfl
    have hprim : indGet ind pk = some (prevPrimary pk rs) := by
      have h1 := hinv.primary
      rw [if_neg hnotin] at h1
      simpa using h1
    have hfind : rs.find? (fun r' => canonKey pk r' == canonKey pk r) = none := by
      rw [List.find?_eq_none]
      intro r1 hr1
      simp only [beq_iff_eq]
      intro hc
      exact (hfresh rfl) (hc ▸ List.mem_map_of_mem (canonKey pk) hr1)
    refine ⟨indSet ind pk (idxSet (prevPrimary pk rs)
      (.str (canonKey pk r)) (.record r)), ?_⟩
    simp only [index_field, if_pos rfl]
    rw [hfv, hprim]
    simp only [Option.getD_some]
    have hck : Value.str (Value.pyStr (pkVal pk r)) = .str (canonKey pk r) := rfl
    rw [hck, prevPrimary_get, hfind]
    rfl
  · cases hget : recGet r f0 with
    | none =>
        have hfv : (recGet r f0).getD (.str "") = .str "" := by rw [hget]; rfl
        obtain ⟨ind', hupd, -, -, -⟩ :=
          update_effect (c := .str "") hpk rfl hinv.wf (Or.inr rfl)
        refine ⟨ind', ?_⟩
        simp only [index_field, if_neg hpk]
        rw [hfv]
        simp only [Value.isHashable, Value.isList, Bool.not_true, Bool.false_and,
          Bool.false_eq_true, if_false]
        exact hupd
    | some v =>
        have hfv : (recGet r f0).getD (.str "") = v := by rw [hget]; rfl
        obtain ⟨kv, hkv, hkv1, hkv2⟩ := kv_mem_of_recGet_some hget
        have hcv : indexableValue v = true := by
          have h1 := hcleanf kv hkv hkv1 (by rw [hkv1]; exact hpk)
          rw [hkv2] at h1
          exact h1
        cases v with
        | str s =>
            obtain ⟨ind', hupd, -, -, -⟩ :=
              update_effect (c := .str s) hpk rfl hinv.wf (Or.inr rfl)
            refine ⟨ind', ?_⟩
            simp only [index_field, if_neg hpk]
            rw [hfv]
            simp only [Value.isHashable, Value.isList, Bool.not_true, Bool.false_and,
              Bool.false_eq_true, if_false]
            exact hupd
        | int n =>
            obtain ⟨ind', hupd, -, -, -⟩ :=
              update_effect (c := .int n) hpk rfl hinv.wf (Or.inr rfl)
            refine ⟨ind', ?_⟩
            simp only [index_field, if_neg hpk]
            rw [hfv]
            simp only [Value.isHashable, Value.isList, Bool.not_true, Bool.false_and,
              Bool.false_eq_true, if_false]
            exact hupd
        | bool b =>
            obtain ⟨ind', hupd, -, -, -⟩ :=
              update_effect (c := .bool b) hpk rfl hinv.wf (Or.inr rfl)
            refine ⟨ind', ?_⟩
            simp only [index_field, if_neg hpk]
            rw [hfv]
            simp only [Value.isHashable, Value.isList, Bool.not_true, Bool.false_and,
              Bool.false_eq_true, if_false]
            exact hupd
        | null =>
            obtain ⟨ind', hupd, -, -, -⟩ :=
              update_effect (c := .null) hpk rfl hinv.wf (Or.inr rfl)
            refine ⟨ind', ?_⟩
            simp only [index_field, if_neg hpk]
            rw [hfv]
            simp only [Value.isHashable, Value.isList, Bool.not_true, Bool.false_and,
              Bool.false_eq_true, if_false]
            exact hupd
        | dict kvs => simp [indexableValue, Value.isHashable] at hcv
        | list vs =>
            have hall : ∀ x ∈ vs, Value.isHashable x = true := by
              intro x hx
              have h2 : vs.all Value.isHashable = true := hcv
              exact List.all_eq_true.mp h2 x hx
            by_cases hlen : vs.length = 0
            · obtain ⟨ind', hupd, -, -, -⟩ :=
                update_effect (c := .str "") hpk rfl hinv.wf (Or.inr rfl)
              refine ⟨ind', ?_⟩
              simp only [index_field, if_neg hpk]
              rw [hfv]
              simp only [Value.isHashable, Value.isList, Bool.not_true, Bool.not_false,
                Bool.and_false, Bool.false_eq_true, if_false]
              rw [if_pos hlen]
              exact hupd
            · obtain ⟨ind', hfold⟩ :=
                updates_fold_ok hpk (Or.inr rfl) vs ind hinv.wf hall
              refine ⟨ind', ?_⟩
              simp only [index_field, if_neg hpk]
              rw [hfv]
              simp only [Value.isHashable, Value.isList, Bool.not_true, Bool.not_false,
                Bool.and_false, Bool.false_eq_true, if_false]
              rw [if_neg hlen]
              exact hfold

/-- The field loop succeeds across `ks2` under the mid-record invariant,
and advances it. -/
theorem index_fields_fold_ok {pk : String} {ks : List String} {rs : List Record}
    {r : Record}
    (hvalid : ∀ r' ∈ rs, Value.pyIsNone (pkVal pk r') = false)
    (hvr : Value.pyIsNone (pkVal pk r) = false) :
    ∀ (ks2 ks1 : List String) (ind : Indices),
    (ks1 ++ ks2).Nodup → (∀ f ∈ ks2, f ∈ ks) →
    (pk ∈ ks2 → canonKey pk r ∉ rs.map (canonKey pk)) →
    (∀ kv ∈ r, kv.1 ∈ ks2 → kv.1 ≠ pk → indexableValue kv.2 = true) →
    FieldInv pk ks rs r ks1 ind →
    ∃ ind', ks2.foldlM (index_field pk r (pkVal pk r)) ind = .ok ind' ∧
      FieldInv pk ks rs r (ks1 ++ ks2) ind' := by
  intro ks2
  induction ks2 with
  | nil =>
      intro ks1 ind _ _ _ _ hinv
      exact ⟨ind, rfl, by rw [List.append_nil]; exact hinv⟩
  | cons f0 ks2 ih =>
      intro ks1 ind hnd hsub hfresh hclean hinv
      have hnotin : f0 ∉ ks1 := by
        intro hmem
        have hdis := (List.nodup_append.mp hnd).2.2
        exact hdis hmem (List.mem_cons_self _ _)
      obtain ⟨mid, hmid⟩ := index_field_ok hinv hvr hnotin
        (fun hc => hfresh (hc ▸ List.mem_cons_self _ _))
        (fun kv hkv hk1 hk2 =>
          hclean kv hkv (hk1 ▸ List.mem_cons_self _ _) hk2)
      have hstep := index_field_step hinv hvalid hvr
        (hsub f0 (List.mem_cons_self _ _)) hnotin hmid
      have heq : (ks1 ++ [f0]) ++ ks2 = ks1 ++ f0 :: ks2 := by simp
      have hnd2 : ((ks1 ++ [f0]) ++ ks2).Nodup := by rw [heq]; exact hnd
      obtain ⟨ind', hfold, hinv'⟩ := ih (ks1 ++ [f0]) mid hnd2
        (fun f hf => hsub f (List.mem_cons_of_mem _ hf))
        (fun hm => hfresh (List.mem_cons_of_mem _ hm))
        (fun kv hkv hk1 hk2 => hclean kv hkv (List.mem_cons_of_mem _ hk1) hk2)
        hstep
      refine ⟨ind', ?_, ?_⟩
      · simp only [List.foldlM_cons]
        rw [hmid]
        exact hfold
      · rw [← heq]
        exact hinv'

/-- The initial mid-record invariant, before any field is processed. -/
theorem fieldinv_initial {pk : String} {ks : List String} {rs : List Record}
    {r : Record} {ind : Indices} (hinv : BuildInv pk ks rs ind) :
    FieldInv pk ks rs r [] ind := by
  refine ⟨?_, ?_, ?_, hinv.wf.mono (fun x hx => Or.inl hx)⟩
  · rw [hinv.primary]
    simp
  · intro hmem
    simp at hmem
  · intro f hf hne v
    rw [hinv.buckets f hf hne v]
    simp

/-- A clean record (valid primary key, fresh canonical key, indexable
field values) is indexed successfully. -/
theorem index_data_point_ok {pk : String} {ks : List String} {rs : List Record}
    {ind : Indices} {r : Record}
    (hnd : ks.Nodup) (hinv : BuildInv pk ks rs ind)
    (hvr : Value.pyIsNone (pkVal pk r) = false)
    (hfresh : canonKey pk r ∉ rs.map (canonKey pk))
    (hclean : ∀ kv ∈ r, kv.1 ≠ pk → indexableValue kv.2 = true) :
    ∃ ind', index_data_point pk ks ind r = .ok ind' := by
  have hchk : check_for_mandatory_keys pk r = .ok () := by
    unfold check_for_mandatory_keys
    have hvr2 : Value.pyIsNone ((recGet r pk).getD .null) = false := hvr
    rw [hvr2]
    rfl
  obtain ⟨ind', hfold, -⟩ := index_fields_fold_ok hinv.valid hvr ks [] ind
    (by simpa using hnd) (fun f hf => hf) (fun _ => hfresh)
    (fun kv hkv _ hk2 => hclean kv hkv hk2) (fieldinv_initial hinv)
  refine ⟨ind', ?_⟩
  unfold index_data_point
  rw [hchk]
  exact hfold

/-- The base invariant of a fresh store, for any observed field set. -/
theorem buildinv_base {pk : String} {ks : List String} :
    BuildInv pk ks [] [(pk, [])] := by
  refine ⟨indGet_cons_pos rfl, ?_, ?_, ?_, ?_⟩
  · intro f hf hne v
    unfold bucketLookup
    rw [indGet_cons_neg (fun hc => hne hc.symm)]
    rfl
  · intro fd hfd hne ve hve
    rw [List.mem_singleton.mp hfd] at hne
    exact absurd rfl hne
  · intro r hr; cases hr
  · exact List.nodup_nil

/-- A batch whose records are all valid, canonically distinct and
indexable is indexed successfully, extending the invariant. -/
theorem build_prefix_ok {pk : String} {ks : List String} (hnd : ks.Nodup) :
    ∀ (rs2 rs1 : List Record) (ind : Indices), BuildInv pk ks rs1 ind →
    (∀ r ∈ rs2, Value.pyIsNone (pkVal pk r) = false) →
    (∀ r ∈ rs2, ∀ kv ∈ r, kv.1 ≠ pk → indexableValue kv.2 = true) →
    ((rs1 ++ rs2).map (canonKey pk)).Nodup →
    (∀ r ∈ rs2, ∀ kv ∈ r, kv.1 ∈ ks) →
    ∃ ind', rs2.foldlM (index_data_point pk ks) ind = .ok ind' ∧
      BuildInv pk ks (rs1 ++ rs2) ind' := by
  intro rs2
  induction rs2 with
  | nil =>
      intro rs1 ind hinv _ _ _ _
      exact ⟨ind, rfl, by rw [List.append_nil]; exact hinv⟩
  | cons r rs2 ih =>
      intro rs1 ind hinv hvalid hclean hdist hkeys
      have hfresh : canonKey pk r ∉ rs1.map (canonKey pk) := by
        intro hmem
        rw [List.map_append] at hdist
        have hdis := (List.nodup_append.mp hdist).2.2
        exact hdis hmem (by simp)
      obtain ⟨mid, hmid⟩ := index_data_point_ok hnd hinv
        (hvalid r (List.mem_cons_self _ _)) hfresh
        (hclean r (List.mem_cons_self _ _))
      have hstep := index_data_point_step hnd hinv
        (hkeys r (List.mem_cons_self _ _)) hmid
      have heq : (rs1 ++ [r]) ++ rs2 = rs1 ++ r :: rs2 := by simp
      obtain ⟨ind', hfold, hinv'⟩ := ih (rs1 ++ [r]) mid hstep
        (fun r' hr' => hvalid r' (List.mem_cons_of_mem _ hr'))
        (fun r' hr' => hclean r' (List.mem_cons_of_mem _ hr'))
        (by rw [heq]; exact hdist)
        (fun r' hr' => hkeys r' (List.mem_cons_of_mem _ hr'))
      refine ⟨ind', ?_, ?_⟩
      · simp only [List.foldlM_cons]
        rw [hmid]
        exact hfold
      · rw [← heq]
        exact hinv'

/-- A record with a missing or null primary key fails validation with
`PrimaryKeyNotFoundError` before any of its fields are indexed. -/
theorem index_data_point_missing {pk : String} {ks : List String}
    {ind : Indices} {r : Record}
    (hbad : Value.pyIsNone (pkVal pk r) = true) :
    index_data_point pk ks ind r = .error (.primaryKeyNotFound r pk) := by
  unfold index_data_point check_for_mandatory_keys
  have hb : Value.pyIsNone ((recGet r pk).getD .null) = true := hbad
  rw [hb]
  rfl

/-- Reaching the primary-key field of a record whose canonical key
collides with an already-indexed record raises
`DuplicatePrimaryKeyError`. -/
theorem index_field_pk_duplicate {pk : String} {ks ks1 : List String}
    {rs : List Record} {r : Record} {ind : Indices}
    (hinv : FieldInv pk ks rs r ks1 ind)
    (hvalid : ∀ r' ∈ rs, Value.pyIsNone (pkVal pk r') = false)
    (hvr : Value.pyIsNone (pkVal pk r) = false)
    (hpknotin : pk ∉ ks1)
    (hcol : ∃ r1 ∈ rs, canonKey pk r1 = canonKey pk r) :
    index_field pk r (pkVal pk r) ind pk =
      .error (.duplicatePrimaryKey (pkVal pk r)) := by
  have hfv : (recGet r pk).getD (.str "") = pkVal pk r := by
    obtain ⟨v, hv⟩ := recGet_some_of_valid hvr
    unfold pkVal
    rw [hv]
    rfl
  have hprim : indGet ind pk = some (prevPrimary pk rs) := by
    have h1 := hinv.primary
    rw [if_neg hpknotin] at h1
    simpa using h1
  simp only [index_field, if_pos rfl]
  rw [hfv, hprim]
  simp only [Option.getD_some]
  have hck : Value.str (Value.pyStr (pkVal pk r)) = .str (canonKey pk r) := rfl
  rw [hck, prevPrimary_get]
  cases hfind : rs.find? (fun r' => canonKey pk r' == canonKey pk r) with
  | none =>
      exfalso
      rw [List.find?_eq_none] at hfind
      obtain ⟨r1, hr1, hc⟩ := hcol
      exact hfind r1 hr1 (by simp [hc])
  | some r1 =>
      have htr := truthy_of_valid (hvalid r1 (List.mem_of_find?_eq_some hfind))
      simp only [Option.map_some', htr, if_true]

/-- Reaching a non-primary field holding a value that is neither
hashable nor a list raises `TypeError` naming the value, field and
record. -/
theorem index_field_unhashable {pk f0 : String} {r : Record} {v : Value}
    (hf0 : f0 ≠ pk) (hget : recGet r f0 = some v)
    (hbad1 : Value.isHashable v = false) (hbad2 : Value.isList v = false) :
    ∀ (pkv : Value) (ind : Indices),
      index_field pk r pkv ind f0 = .error (.unhashableValue v f0 r) := by
  intro pkv ind
  have hfv : (recGet r f0).getD (.str "") = v := by rw [hget]; rfl
  simp only [index_field, if_neg hf0]
  rw [hfv, hbad1, hbad2]
  rfl

/-- A validated record whose canonical key collides with an indexed one
makes the whole data-point step fail with `DuplicatePrimaryKeyError`,
provided its field values are themselves indexable. -/
theorem index_data_point_duplicate {pk : String} {ks : List String}
    {rs : List Record} {ind : Indices} {r : Record}
    (hnd : ks.Nodup) (hinv : BuildInv pk ks rs ind)
    (hvr : Value.pyIsNone (pkVal pk r) = false)
    (hcol : ∃ r1 ∈ rs, canonKey pk r1 = canonKey pk r)
    (hkeys : ∀ kv ∈ r, kv.1 ∈ ks)
    (hclean : ∀ kv ∈ r, kv.1 ≠ pk → indexableValue kv.2 = true) :
    index_data_point pk ks ind r = .error (.duplicatePrimaryKey (pkVal pk r)) := by
  have hchk : check_for_mandatory_keys pk r = .ok () := by
    unfold check_for_mandatory_keys
    have hvr2 : Value.pyIsNone ((recGet r pk).getD .null) = false := hvr
    rw [hvr2]
    rfl
  have hpkks : pk ∈ ks := by
    obtain ⟨kv, hkv, hkv1⟩ := pk_key_mem_of_valid hvr
    rw [← hkv1]
    exact hkeys kv hkv
  obtain ⟨pre, post, hks⟩ := List.append_of_mem hpkks
  subst hks
  have hpre_nodup : ([] ++ pre : List String).Nodup := by
    simpa using (List.nodup_append.mp hnd).1
  have hpk_notin_pre : pk ∉ pre := by
    intro hmem
    exact (List.nodup_append.mp hnd).2.2 hmem (List.mem_cons_self _ _)
  obtain ⟨mid, hfold, hmidinv⟩ := index_fields_fold_ok hinv.valid hvr pre [] ind
    hpre_nodup (fun f hf => List.mem_append_left _ hf)
    (fun hm => absurd hm hpk_notin_pre)
    (fun kv hkv hk1 hk2 => hclean kv hkv hk2)
    (fieldinv_initial hinv)
  have herr := index_field_pk_duplicate hmidinv hinv.valid hvr hpk_notin_pre hcol
  unfold index_data_point
  rw [hchk]
  show (pre ++ pk :: post).foldlM (index_field pk r (pkVal pk r)) ind = _
  rw [List.foldlM_append, hfold]
  show (pk :: post).foldlM (index_field pk r (pkVal pk r)) mid = _
  simp only [List.foldlM_cons]
  rw [herr]
  rfl

/-- A validated, non-colliding record holding one non-indexable
(non-list, unhashable) field value makes the data-point step fail with
`TypeError` naming that value, field and record, provided its other
field values are indexable. -/
theorem index_data_point_unhashable {pk : String} {ks : List String}
    {rs : List Record} {ind : Indices} {r : Record} {f : String} {v : Value}
    (hnd : ks.Nodup) (hinv : BuildInv pk ks rs ind)
    (hvr : Value.pyIsNone (pkVal pk r) = false)
    (hfresh : canonKey pk r ∉ rs.map (canonKey pk))
    (hget : recGet r f = some v)
    (hbad1 : Value.isHashable v = false) (hbad2 : Value.isList v = false)
    (hf : f ≠ pk)
    (hkeys : ∀ kv ∈ r, kv.1 ∈ ks)
    (hclean : ∀ kv ∈ r, kv.1 ≠ pk → kv.1 ≠ f → indexableValue kv.2 = true) :
    index_data_point pk ks ind r = .error (.unhashableValue v f r) := by
  have hchk : check_for_mandatory_keys pk r = .ok () := by
    unfold check_for_mandatory_keys
    have hvr2 : Value.pyIsNone ((recGet r pk).getD .null) = false := hvr
    rw [hvr2]
    rfl
  have hfks : f ∈ ks := by
    obtain ⟨kv, hkv, hkv1⟩ := key_mem_of_recGet_some hget
    rw [← hkv1]
    exact hkeys kv hkv
  obtain ⟨pre, post, hks⟩ := List.append_of_mem hfks
  subst hks
  have hpre_nodup : ([] ++ pre : List String).Nodup := by
    simpa using (List.nodup_append.mp hnd).1
  have hf_notin_pre : f ∉ pre := by
    intro hmem
    exact (List.nodup_append.mp hnd).2.2 hmem (List.mem_cons_self _ _)
  obtain ⟨mid, hfold, -⟩ := index_fields_fold_ok hinv.valid hvr pre [] ind
    hpre_nodup (fun f' hf' => List.mem_append_left _ hf')
    (fun _ => hfresh)
    (fun kv hkv hk1 hk2 => hclean kv hkv hk2
      (fun hc => hf_notin_pre (hc ▸ hk1)))
    (fieldinv_initial hinv)
  have herr := index_field_unhashable hf hget hbad1 hbad2 (pkVal pk r) mid
  unfold index_data_point
  rw [hchk]
  show (pre ++ f :: post).foldlM (index_field pk r (pkVal pk r)) ind = _
  rw [List.foldlM_append, hfold]
  show (f :: post).foldlM (index_field pk r (pkVal pk r)) mid = _
  simp only [List.foldlM_cons]
  rw [herr]
  rfl

/-- Composition: a batch whose prefix ingests cleanly and whose next
record makes the data-point step fail, fails the whole ingestion with
that error — whatever records follow. -/
theorem load_fail_at {name pk : String} {rs1 rest : List Record} {r : Record}
    {err : ZError}
    (hvalid1 : ∀ r' ∈ rs1, Value.pyIsNone (pkVal pk r') = false)
    (hclean1 : ∀ r' ∈ rs1, ∀ kv ∈ r', kv.1 ≠ pk → indexableValue kv.2 = true)
    (hdist1 : (rs1.map (canonKey pk)).Nodup)
    (herr : ∀ (ks : List String) (ind1 : Indices),
      ks = unionKeys [] (rs1 ++ r :: rest) → ks.Nodup →
      BuildInv pk ks rs1 ind1 → index_data_point pk ks ind1 r = .error err) :
    (Entity.init name pk).load_data_build_indices (rs1 ++ r :: rest) =
      .error err := by
  have hnd : (unionKeys [] (rs1 ++ r :: rest)).Nodup := unionKeys_nodup List.nodup_nil
  obtain ⟨ind1, hfold1, hinv1⟩ := build_prefix_ok hnd rs1 [] [(pk, [])]
    buildinv_base hvalid1 hclean1 (by simpa using hdist1)
    (fun r' hr' kv hkv => mem_unionKeys (List.mem_append_left _ hr') hkv)
  have hinv1b : BuildInv pk (unionKeys [] (rs1 ++ r :: rest)) rs1 ind1 := by
    simpa using hinv1
  have hbuild : build_indices pk (unionKeys [] (rs1 ++ r :: rest)) [(pk, [])]
      (rs1 ++ r :: rest) = .error err := by
    unfold build_indices
    rw [if_neg (by simp)]
    rw [List.foldlM_append, hfold1]
    show (r :: rest).foldlM (index_data_point pk (unionKeys [] (rs1 ++ r :: rest))) ind1 = _
    simp only [List.foldlM_cons]
    rw [herr (unionKeys [] (rs1 ++ r :: rest)) ind1 rfl hnd hinv1b]
    rfl
  have h2 : (Entity.init name pk).load_data_build_indices (rs1 ++ r :: rest) =
      (build_indices pk (unionKeys [] (rs1 ++ r :: rest)) [(pk, [])]
        (rs1 ++ r :: rest)).bind
        (fun ind => Except.ok
          { entity_name := name, primary_key := pk, indices := ind,
            data := rs1 ++ r :: rest,
            keys_set := unionKeys [] (rs1 ++ r :: rest) }) := rfl
  rw [h2, hbuild]
  rfl

/-- C8: a record that lacks the primary-key field or holds a null value
under it aborts ingestion with `PrimaryKeyNotFoundError` naming the
offending record and the expected key; the remaining records are never
indexed (the result is this error for every continuation `rest`). -/
theorem c8_missing_primary_key {name pk : String} {rs1 rest : List Record}
    {r : Record}
    (hvalid1 : ∀ r' ∈ rs1, Value.pyIsNone (pkVal pk r') = false)
    (hclean1 : ∀ r' ∈ rs1, ∀ kv ∈ r', kv.1 ≠ pk → indexableValue kv.2 = true)
    (hdist1 : (rs1.map (canonKey pk)).Nodup)
    (hbad : Value.pyIsNone (pkVal pk r) = true) :
    (Entity.init name pk).load_data_build_indices (rs1 ++ r :: rest) =
      .error (.primaryKeyNotFound r pk) :=
  load_fail_at hvalid1 hclean1 hdist1
    (fun _ _ _ _ _ => index_data_point_missing hbad)

/-- C8, witness: the second record lacks `_id`, so ingestion fails with
`PrimaryKeyNotFoundError` naming it, and the third record is never
reached. -/
theorem c8_witness :
    (Entity.init "user" "_id").load_data_build_indices
      [[("_id", Value.int 1)], [("url", Value.str "u")], [("_id", Value.int 9)]] =
      .error (.primaryKeyNotFound [("url", Value.str "u")] "_id") :=
  @c8_missing_primary_key "user" "_id" [[("_id", Value.int 1)]]
    [[("_id", Value.int 9)]] [("url", Value.str "u")]
    (by decide) (by decide) (by decide) rfl

/-- C3 (amended): ingesting a batch in which a later record's primary
key stringifies to the canonical key of an earlier one raises
`DuplicatePrimaryKeyError` upon processing that later record — provided
every record up to it passes validation (non-null primary key) and
holds only indexable field values; a null-null collision instead fails
validation first (see `c3_counterexample`). -/
theorem c3_duplicate_primary_key {name pk : String} {rs1 rest : List Record}
    {r1 r2 : Record}
    (hr1 : r1 ∈ rs1) (hcol : canonKey pk r1 = canonKey pk r2)
    (hvalid1 : ∀ r' ∈ rs1, Value.pyIsNone (pkVal pk r') = false)
    (hclean1 : ∀ r' ∈ rs1, ∀ kv ∈ r', kv.1 ≠ pk → indexableValue kv.2 = true)
    (hdist1 : (rs1.map (canonKey pk)).Nodup)
    (hvr2 : Value.pyIsNone (pkVal pk r2) = false)
    (hclean2 : ∀ kv ∈ r2, kv.1 ≠ pk → indexableValue kv.2 = true) :
    (Entity.init name pk).load_data_build_indices (rs1 ++ r2 :: rest) =
      .error (.duplicatePrimaryKey (pkVal pk r2)) := by
  apply load_fail_at hvalid1 hclean1 hdist1
  intro ks ind1 hks hnd hinv
  subst hks
  exact index_data_point_duplicate hnd hinv hvr2 ⟨r1, hr1, hcol⟩
    (fun kv hkv =>
      mem_unionKeys (List.mem_append_right _ (List.mem_cons_self _ _)) hkv)
    hclean2

/-- C3, counterexample to the claim as stated: two records whose
primary-key values both stringify to `"None"` (null values) do make the
canonical strings collide, yet ingestion raises
`PrimaryKeyNotFoundError` on the **first** record, not
`DuplicatePrimaryKeyError` on the second. -/
theorem c3_counterexample :
    (Entity.init "user" "_id").load_data_build_indices
      [[("_id", Value.null)], [("_id", Value.null)]] =
      .error (.primaryKeyNotFound [("_id", Value.null)] "_id") ∧
    canonKey "_id" [("_id", Value.null)] = canonKey "_id" [("_id", Value.null)] ∧
    (Entity.init "user" "_id").load_data_build_indices
      [[("_id", Value.null)], [("_id", Value.null)]] ≠
      .error (.duplicatePrimaryKey Value.null) := by
  refine ⟨rfl, rfl, ?_⟩
  intro hc
  have h2 : (Except.error (ZError.primaryKeyNotFound [("_id", Value.null)] "_id") :
      Except ZError Entity) = .error (.duplicatePrimaryKey Value.null) :=
    (rfl : (Entity.init "user" "_id").load_data_build_indices
      [[("_id", Value.null)], [("_id", Value.null)]] =
      .error (.primaryKeyNotFound [("_id", Value.null)] "_id")).symm.trans hc
  injection h2 with h3
  exact ZError.noConfusion h3

/-- C3, witness: `1` (int) and `"1"` (string) are not `==`-equal in the
host value model yet stringify identically, so the second record
collides and raises `DuplicatePrimaryKeyError`; the third record is
never reached. -/
theorem c3_witness :
    (Entity.init "user" "_id").load_data_build_indices
      [[("_id", Value.int 1)], [("_id", Value.str "1")], [("_id", Value.int 5)]] =
      .error (.duplicatePrimaryKey (Value.str "1")) ∧
    Value.pyEq (Value.int 1) (Value.str "1") = false := by
  refine ⟨?_, rfl⟩
  exact @c3_duplicate_primary_key "user" "_id" [[("_id", Value.int 1)]]
    [[("_id", Value.int 5)]] [("_id", Value.int 1)] [("_id", Value.str "1")]
    (by decide) rfl (by decide) (by decide) (by decide) rfl (by decide)

/-- C9: a non-primary field value that is neither hashable nor a list
(e.g. a nested map) makes ingestion fail with `TypeError` naming the
value, field and record, while list values are flattened instead —
provided the records before it ingest cleanly and the record's other
field values are indexable. -/
theorem c9_unhashable_value {name pk : String} {rs1 rest : List Record}
    {r : Record} {f : String} {v : Value}
    (hvalid1 : ∀ r' ∈ rs1, Value.pyIsNone (pkVal pk r') = false)
    (hclean1 : ∀ r' ∈ rs1, ∀ kv ∈ r', kv.1 ≠ pk → indexableValue kv.2 = true)
    (hdist1 : (rs1.map (canonKey pk)).Nodup)
    (hvr : Value.pyIsNone (pkVal pk r) = false)
    (hfreshr : canonKey pk r ∉ rs1.map (canonKey pk))
    (hget : recGet r f = some v)
    (hbad1 : Value.isHashable v = false) (hbad2 : Value.isList v = false)
    (hf : f ≠ pk)
    (hcleanr : ∀ kv ∈ r, kv.1 ≠ pk → kv.1 ≠ f → indexableValue kv.2 = true) :
    (Entity.init name pk).load_data_build_indices (rs1 ++ r :: rest) =
      .error (.unhashableValue v f r) := by
  apply load_fail_at hvalid1 hclean1 hdist1
  intro ks ind1 hks hnd hinv
  subst hks
  exact index_data_point_unhashable hnd hinv hvr hfreshr hget hbad1 hbad2 hf
    (fun kv hkv =>
      mem_unionKeys (List.mem_append_right _ (List.mem_cons_self _ _)) hkv)
    hcleanr

/-- C9, witness: a nested map under `bad` aborts ingestion with
`TypeError` naming the value, the field and the record, while the later
record is never indexed. -/
theorem c9_witness :
    (Entity.init "user" "_id").load_data_build_indices
      [[("_id", Value.int 1)],
       [("_id", Value.int 2), ("bad", Value.dict [("x", Value.int 1)])],
       [("_id", Value.int 3)]] =
      .error (.unhashableValue (Value.dict [("x", Value.int 1)]) "bad"
        [("_id", Value.int 2), ("bad", Value.dict [("x", Value.int 1)])]) :=
  @c9_unhashable_value "user" "_id" [[("_id", Value.int 1)]]
    [[("_id", Value.int 3)]]
    [("_id", Value.int 2), ("bad", Value.dict [("x", Value.int 1)])]
    "bad" (Value.dict [("x", Value.int 1)])
    (by decide) (by decide) (by decide) rfl (by decide) rfl rfl rfl
    (by decide) (by decide)

/-- C5 (amended): `search` on a field with no secondary index returns
an empty result, and on an indexed field with no bucket for the (valid,
hashable) search term it returns an empty result **provided** no
record's canonical primary key is the string `"None"` — the missed
lookup delegates `None` (not an empty key sequence) to the primary-key
lookup, which canonicalizes it to `"None"` (see `c5_counterexample`). -/
theorem c5_search_miss_empty {name pk : String} {rs : List Record} {e : Entity}
    (h : (Entity.init name pk).load_data_build_indices rs = .ok e)
    (f : String) (v : Value) :
    (indGet e.indices f = none → e.search f v = .ok []) ∧
    (∀ d, indGet e.indices f = some d → f ≠ pk → Value.isHashable v = true →
      idxGet d v = none → (∀ r ∈ rs, canonKey pk r ≠ "None") →
      e.search f v = .ok []) := by
  obtain ⟨hinv, hpk, -, -, -⟩ := load_ok_inv h
  constructor
  · intro hnone
    have hfne : f ≠ pk := by
      intro hc
      rw [hc, hinv.primary] at hnone
      cases hnone
    unfold Entity.search
    rw [if_neg (fun hc => hfne (hc.trans hpk))]
    rw [hnone]
  · intro d hd hfne hv hget hnone
    unfold Entity.search
    rw [if_neg (fun hc => hfne (hc.trans hpk))]
    rw [hd]
    simp only [hv, Bool.not_true, Bool.false_eq_true, if_false]
    rw [hget]
    show Except.ok (e.get_data_from_primary_keys .null) = .ok []
    rw [get_data_scalar_eq_singleton (k := Value.null) rfl,
      load_get_data_list h [Value.null]]
    have hfind : rs.find? (fun r => canonKey pk r == Value.pyStr Value.null) = none := by
      rw [List.find?_eq_none]
      intro r hr
      simp
      exact hnone r hr
    simp only [List.filterMap_cons, List.filterMap_nil]
    rw [hfind]
    rfl

/-- C5, counterexample to the claim as stated: the `name` field **is**
indexed and `"zzz"` has no bucket, yet `search` returns a record — the
missed bucket lookup hands `None` to the primary-key lookup, whose
canonical form `"None"` matches the record's primary key. -/
theorem c5_counterexample :
    (Entity.init "user" "_id").load_data_build_indices
      [[("_id", Value.str "None"), ("name", Value.str "x")]] =
      .ok ⟨"user", "_id",
        [("_id", [(.str "None", .record [("_id", .str "None"), ("name", .str "x")])]),
         ("name", [(.str "x", .bucket [.str "None"])])],
        [[("_id", .str "None"), ("name", .str "x")]],
        ["_id", "name"]⟩ ∧
    indGet [("_id", [(.str "None", Entry.record [("_id", .str "None"), ("name", .str "x")])]),
            ("name", [(.str "x", Entry.bucket [.str "None"])])] "name" =
      some [(.str "x", Entry.bucket [.str "None"])] ∧
    idxGet [(.str "x", Entry.bucket [.str "None"])] (.str "zzz") = none ∧
    (⟨"user", "_id",
        [("_id", [(.str "None", .record [("_id", .str "None"), ("name", .str "x")])]),
         ("name", [(.str "x", .bucket [.str "None"])])],
        [[("_id", .str "None"), ("name", .str "x")]],
        ["_id", "name"]⟩ : Entity).search "name" (.str "zzz") =
      .ok [.dict [("_id", .str "None"), ("name", .str "x")]] :=
  ⟨rfl, rfl, rfl, rfl⟩

/-- C5, witness: over a store without a `"None"` canonical key, an
unindexed field and a missed bucket both yield an empty result without
an error. -/
theorem c5_witness :
    (Entity.init "user" "_id").load_data_build_indices
      [[("_id", Value.int 1), ("name", Value.str "one")], [("_id", Value.int 2)]] =
      .ok ⟨"user", "_id",
        [("_id", [(.str "1", .record [("_id", .int 1), ("name", .str "one")]),
                  (.str "2", .record [("_id", .int 2)])]),
         ("name", [(.str "one", .bucket [.int 1]), (.str "", .bucket [.int 2])])],
        [[("_id", .int 1), ("name", .str "one")], [("_id", .int 2)]],
        ["_id", "name"]⟩ ∧
    (⟨"user", "_id",
        [("_id", [(.str "1", .record [("_id", .int 1), ("name", .str "one")]),
                  (.str "2", .record [("_id", .int 2)])]),
         ("name", [(.str "one", .bucket [.int 1]), (.str "", .bucket [.int 2])])],
        [[("_id", .int 1), ("name", .str "one")], [("_id", .int 2)]],
        ["_id", "name"]⟩ : Entity).search "foo_index" (.str "zero") = .ok [] ∧
    (⟨"user", "_id",
        [("_id", [(.str "1", .record [("_id", .int 1), ("name", .str "one")]),
                  (.str "2", .record [("_id", .int 2)])]),
         ("name", [(.str "one", .bucket [.int 1]), (.str "", .bucket [.int 2])])],
        [[("_id", .int 1), ("name", .str "one")], [("_id", .int 2)]],
        ["_id", "name"]⟩ : Entity).search "name" (.str "2") = .ok [] := by
  have hload : (Entity.init "user" "_id").load_data_build_indices
      [[("_id", Value.int 1), ("name", Value.str "one")], [("_id", Value.int 2)]] =
      .ok ⟨"user", "_id",
        [("_id", [(.str "1", .record [("_id", .int 1), ("name", .str "one")]),
                  (.str "2", .record [("_id", .int 2)])]),
         ("name", [(.str "one", .bucket [.int 1]), (.str "", .bucket [.int 2])])],
        [[("_id", .int 1), ("name", .str "one")], [("_id", .int 2)]],
        ["_id", "name"]⟩ := rfl
  refine ⟨hload, ?_, ?_⟩
  · exact (c5_search_miss_empty hload "foo_index" (.str "zero")).1 rfl
  · exact (c5_search_miss_empty hload "name" (.str "2")).2
      [(.str "one", .bucket [.int 1]), (.str "", .bucket [.int 2])]
      rfl (by decide) rfl rfl (by decide)

/-! ## Heap model for the deep-copy guarantee

`get_data_from_primary_keys` returns `ujson.loads(ujson.dumps(match))`:
serialization reads the stored record out as a value, and parsing
allocates a fresh object graph sharing no cell with the store.  The
value-level effect is `Value.deepCopy` above; the aliasing consequence —
mutating the returned object cannot change the stored record — is
modelled here by an explicit heap of object cells. -/

/-- A heap cell: one Python object, with references (addresses) to its
children. -/
inductive HVal where
  | hstr (s : String)
  | hint (n : Int)
  | hbool (b : Bool)
  | hnull
  | hlist (elems : List Nat)
  | hdict (fields : List (String × Nat))

/-- The addresses a cell refers to. -/
def HVal.children : HVal → List Nat
  | .hlist es => es
  | .hdict fs => fs.map (·.2)
  | _ => []

/-- A heap: cells addressed by naturals, all below the allocation
bound `next`. -/
structure Heap where
  get : Nat → Option HVal
  next : Nat

/-- In-place mutation of the object at address `b`. -/
def Heap.set (h : Heap) (b : Nat) (w : HVal) : Heap :=
  ⟨fun a => if a = b then some w else h.get a, h.next⟩

/-- Every cell allocated below `n` refers only to addresses below `n`. -/
def lowClosed (h : Heap) (n : Nat) : Prop :=
  ∀ a, a < n → ∀ hv, h.get a = some hv → ∀ b ∈ hv.children, b < n

mutual

/-- Fuel-bounded dereference of an object graph into a value (one unit
of fuel per cell visited and per list link followed). -/
def readV : Nat → Heap → Nat → Option Value
  | 0, _, _ => none
  | fuel + 1, h, a =>
      match h.get a with
      | some (.hstr s) => some (.str s)
      | some (.hint n) => some (.int n)
      | some (.hbool b) => some (.bool b)
      | some .hnull => some .null
      | some (.hlist es) => (readL fuel h es).map .list
      | some (.hdict fs) => (readF fuel h fs).map .dict
      | none => none
  termination_by structural fuel _ _ => fuel

def readL : Nat → Heap → List Nat → Option (List Value)
  | _, _, [] => some []
  | 0, _, _ :: _ => none
  | fuel + 1, h, a :: as => do
      let v ← readV fuel h a
      let vs ← readL fuel h as
      pure (v :: vs)
  termination_by structural fuel _ _ => fuel

def readF : Nat → Heap → List (String × Nat) → Option (List (String × Value))
  | _, _, [] => some []
  | 0, _, _ :: _ => none
  | fuel + 1, h, (k, a) :: fs => do
      let v ← readV fuel h a
      let vs ← readF fuel h fs
      pure ((k, v) :: vs)
  termination_by structural fuel _ _ => fuel

end

/-- Append one fresh cell at the allocation bound. -/
def pushCell (h : Heap) (hv : HVal) : Heap × Nat :=
  (⟨fun a => if a = h.next then some hv else h.get a, h.next + 1⟩, h.next)

mutual

/-- Fresh allocation of a pure value as a new object graph: models the
parse step of `ujson.loads`, which builds objects sharing nothing with
existing ones. -/
def allocV : Heap → Value → Heap × Nat
  | h, .str s => pushCell h (.hstr s)
  | h, .int n => pushCell h (.hint n)
  | h, .bool b => pushCell h (.hbool b)
  | h, .null => pushCell h .hnull
  | h, .list xs =>
      let p := allocL h xs
      pushCell p.1 (.hlist p.2)
  | h, .dict kvs =>
      let p := allocF h kvs
      pushCell p.1 (.hdict p.2)
  termination_by structural _ v => v

def allocL : Heap → List Value → Heap × List Nat
  | h, [] => (h, [])
  | h, x :: xs =>
      let p := allocV h x
      let q := allocL p.1 xs
      (q.1, p.2 :: q.2)
  termination_by structural _ xs => xs

def allocF : Heap → List (String × Value) → Heap × List (String × Nat)
  | h, [] => (h, [])
  | h, (k, v) :: kvs =>
      let p := allocV h v
      let q := allocF p.1 kvs
      (q.1, (k, p.2) :: q.2)
  termination_by structural _ kvs => kvs

end

/-- The retrieval step of `get_data_from_primary_keys`, on the heap:
serialize the stored record's value `v` and parse it back, allocating a
fresh object graph. -/
def get_record_copy (h : Heap) (v : Value) : Heap × Nat := allocV h v

mutual

/-- Fuel adequate to dereference the allocation of a value. -/
def vsize : Value → Nat
  | .str _ => 1
  | .int _ => 1
  | .bool _ => 1
  | .null => 1
  | .list xs => lsize xs + 1
  | .dict kvs => fsize kvs + 1
  termination_by structural v => v

def lsize : List Value → Nat
  | [] => 0
  | x :: xs => vsize x + lsize xs + 1
  termination_by structural xs => xs

def fsize : List (String × Value) → Nat
  | [] => 0
  | (_, v) :: kvs => vsize v + fsize kvs + 1
  termination_by structural kvs => kvs

end

/-- Dereferencing below `n` only looks at cells below `n`: two heaps
that agree below `n` dereference alike there. -/
theorem read_agree {h1 h2 : Heap} {n : Nat} (hlc : lowClosed h1 n)
    (hag : ∀ a, a < n → h2.get a = h1.get a) :
    ∀ fuel,
      (∀ a, a < n → readV fuel h2 a = readV fuel h1 a) ∧
      (∀ as, (∀ a ∈ as, a < n) → readL fuel h2 as = readL fuel h1 as) ∧
      (∀ fs : List (String × Nat), (∀ a ∈ fs.map (·.2), a < n) →
        readF fuel h2 fs = readF fuel h1 fs) := by
  intro fuel
  induction fuel with
  | zero =>
      refine ⟨fun a _ => rfl, ?_, ?_⟩
      · intro as _
        cases as with
        | nil => rfl
        | cons a as => rfl
      · intro fs _
        cases fs with
        | nil => rfl
        | cons f fs => rfl
  | succ fuel ih =>
      obtain ⟨ihV, ihL, ihF⟩ := ih
      refine ⟨?_, ?_, ?_⟩
      · intro a ha
        rw [readV, readV, hag a ha]
        cases hget : h1.get a with
        | none => rfl
        | some hv =>
            cases hv with
            | hstr s => rfl
            | hint m => rfl
            | hbool b => rfl
            | hnull => rfl
            | hlist es =>
                have hch := hlc a ha _ hget
                dsimp only
                rw [ihL es (by simpa [HVal.children] using hch)]
            | hdict fs =>
                have hch := hlc a ha _ hget
                dsimp only
                rw [ihF fs (by simpa [HVal.children] using hch)]
      · intro as has
        cases as with
        | nil => rfl
        | cons a as =>
            rw [readL, readL, ihV a (has a (List.mem_cons_self _ _)),
              ihL as (fun x hx => has x (List.mem_cons_of_mem _ hx))]
      · intro fs has
        cases fs with
        | nil => rfl
        | cons f fs =>
            obtain ⟨k, a⟩ := f
            rw [readF, readF, ihV a (has a (by simp)),
              ihF fs (fun x hx => has x (List.mem_cons_of_mem _ hx))]

mutual

/-- Allocation appends only fresh cells: the bound grows, old cells are
untouched, the root is fresh, and closure below the bound is kept. -/
theorem allocV_props : ∀ (h : Heap) (v : Value),
    h.next ≤ (allocV h v).1.next ∧
    (∀ a, a < h.next → (allocV h v).1.get a = h.get a) ∧
    h.next ≤ (allocV h v).2 ∧ (allocV h v).2 < (allocV h v).1.next ∧
    (lowClosed h h.next → lowClosed (allocV h v).1 (allocV h v).1.next)
  | h, .str s => by
      refine ⟨Nat.le_succ _, ?_, Nat.le_refl _, Nat.lt_succ_self _, ?_⟩
      · intro a ha
        simp [allocV, pushCell, Nat.ne_of_lt ha]
      · intro hlc a ha hv hget b hb
        simp only [allocV, pushCell] at hget
        by_cases han : a = h.next
        · rw [if_pos han] at hget
          injection hget with h2
          rw [← h2] at hb
          cases hb
        · rw [if_neg han] at hget
          have ha2 : a < h.next := Nat.lt_of_le_of_ne (Nat.le_of_lt_succ ha) han
          exact Nat.lt_succ_of_lt (hlc a ha2 hv hget b hb)
  | h, .int n => by
      refine ⟨Nat.le_succ _, ?_, Nat.le_refl _, Nat.lt_succ_self _, ?_⟩
      · intro a ha
        simp [allocV, pushCell, Nat.ne_of_lt ha]
      · intro hlc a ha hv hget b hb
        simp only [allocV, pushCell] at hget
        by_cases han : a = h.next
        · rw [if_pos han] at hget
          injection hget with h2
          rw [← h2] at hb
          cases hb
        · rw [if_neg han] at hget
          have ha2 : a < h.next := Nat.lt_of_le_of_ne (Nat.le_of_lt_succ ha) han
          exact Nat.lt_succ_of_lt (hlc a ha2 hv hget b hb)
  | h, .bool b0 => by
      refine ⟨Nat.le_succ _, ?_, Nat.le_refl _, Nat.lt_succ_self _, ?_⟩
      · intro a ha
        simp [allocV, pushCell, Nat.ne_of_lt ha]
      · intro hlc a ha hv hget b hb
        simp only [allocV, pushCell] at hget
        by_cases han : a = h.next
        · rw [if_pos han] at hget
          injection hget with h2
          rw [← h2] at hb
          cases hb
        · rw [if_neg han] at hget
          have ha2 : a < h.next := Nat.lt_of_le_of_ne (Nat.le_of_lt_succ ha) han
          exact Nat.lt_succ_of_lt (hlc a ha2 hv hget b hb)
  | h, .null => by
      refine ⟨Nat.le_succ _, ?_, Nat.le_refl _, Nat.lt_succ_self _, ?_⟩
      · intro a ha
        simp [allocV, pushCell, Nat.ne_of_lt ha]
      · intro hlc a ha hv hget b hb
        simp only [allocV, pushCell] at hget
        by_cases han : a = h.next
        · rw [if_pos han] at hget
          injection hget with h2
          rw [← h2] at hb
          cases hb
        · rw [if_neg han] at hget
          have ha2 : a < h.next := Nat.lt_of_le_of_ne (Nat.le_of_lt_succ ha) han
          exact Nat.lt_succ_of_lt (hlc a ha2 hv hget b hb)
  | h, .list xs => by
      obtain ⟨hn, hg, hr, hwf⟩ := allocL_props h xs
      have hstep : allocV h (.list xs) =
          pushCell (allocL h xs).1 (.hlist (allocL h xs).2) := rfl
      rw [hstep]
      refine ⟨le_trans hn (Nat.le_succ _), ?_, hn, Nat.lt_succ_self _, ?_⟩
      · intro a ha
        have ha2 : a ≠ (allocL h xs).1.next := Nat.ne_of_lt (lt_of_lt_of_le ha hn)
        simp [pushCell, ha2]
        exact hg a ha
      · intro hlc a ha hv hget b hb
        simp only [pushCell] at hget ha ⊢
        by_cases han : a = (allocL h xs).1.next
        · rw [if_pos han] at hget
          injection hget with h2
          rw [← h2] at hb
          simp only [HVal.children] at hb
          exact Nat.lt_succ_of_lt ((hr b hb).2)
        · rw [if_neg han] at hget
          have ha2 : a < (allocL h xs).1.next :=
            Nat.lt_of_le_of_ne (Nat.le_of_lt_succ ha) han
          exact Nat.lt_succ_of_lt (hwf hlc a ha2 hv hget b hb)
  | h, .dict kvs => by
      obtain ⟨hn, hg, hr, hwf⟩ := allocF_props h kvs
      have hstep : allocV h (.dict kvs) =
          pushCell (allocF h kvs).1 (.hdict (allocF h kvs).2) := rfl
      rw [hstep]
      refine ⟨le_trans hn (Nat.le_succ _), ?_, hn, Nat.lt_succ_self _, ?_⟩
      · intro a ha
        have ha2 : a ≠ (allocF h kvs).1.next := Nat.ne_of_lt (lt_of_lt_of_le ha hn)
        simp [pushCell, ha2]
        exact hg a ha
      · intro hlc a ha hv hget b hb
        simp only [pushCell] at hget ha ⊢
        by_cases han : a = (allocF h kvs).1.next
        · rw [if_pos han] at hget
          injection hget with h2
          rw [← h2] at hb
          simp only [HVal.children] at hb
          obtain ⟨x, hx, hx2⟩ := List.mem_map.mp hb
          rw [← hx2]
          exact Nat.lt_succ_of_lt ((hr x.2 (List.mem_map_of_mem _ hx)).2)
        · rw [if_neg han] at hget
          have ha2 : a < (allocF h kvs).1.next :=
            Nat.lt_of_le_of_ne (Nat.le_of_lt_succ ha) han
          exact Nat.lt_succ_of_lt (hwf hlc a ha2 hv hget b hb)

theorem allocL_props : ∀ (h : Heap) (xs : List Value),
    h.next ≤ (allocL h xs).1.next ∧
    (∀ a, a < h.next → (allocL h xs).1.get a = h.get a) ∧
    (∀ r ∈ (allocL h xs).2, h.next ≤ r ∧ r < (allocL h xs).1.next) ∧
    (lowClosed h h.next → lowClosed (allocL h xs).1 (allocL h xs).1.next)
  | h, [] => ⟨Nat.le_refl _, fun a _ => rfl,
      fun r hr => absurd hr (List.not_mem_nil r), fun hlc => hlc⟩
  | h, x :: xs => by
      obtain ⟨hnV, hgV, hrV1, hrV2, hwfV⟩ := allocV_props h x
      obtain ⟨hnL, hgL, hrL, hwfL⟩ := allocL_props (allocV h x).1 xs
      have hstep : allocL h (x :: xs) =
          ((allocL (allocV h x).1 xs).1,
            (allocV h x).2 :: (allocL (allocV h x).1 xs).2) := rfl
      rw [hstep]
      refine ⟨le_trans hnV hnL, ?_, ?_, ?_⟩
      · intro a ha
        rw [hgL a (lt_of_lt_of_le ha hnV)]
        exact hgV a ha
      · intro r hr
        rcases List.mem_cons.mp hr with h1 | h1
        · subst h1
          exact ⟨hrV1, lt_of_lt_of_le hrV2 hnL⟩
        · obtain ⟨h2, h3⟩ := hrL r h1
          exact ⟨le_trans hnV h2, h3⟩
      · intro hlc
        exact hwfL (hwfV hlc)

theorem allocF_props : ∀ (h : Heap) (kvs : List (String × Value)),
    h.next ≤ (allocF h kvs).1.next ∧
    (∀ a, a < h.next → (allocF h kvs).1.get a = h.get a) ∧
    (∀ r ∈ (allocF h kvs).2.map (·.2), h.next ≤ r ∧ r < (allocF h kvs).1.next) ∧
    (lowClosed h h.next → lowClosed (allocF h kvs).1 (allocF h kvs).1.next)
  | h, [] => ⟨Nat.le_refl _, fun a _ => rfl,
      fun r hr => absurd hr (List.not_mem_nil r), fun hlc => hlc⟩
  | h, (k, v) :: kvs => by
      obtain ⟨hnV, hgV, hrV1, hrV2, hwfV⟩ := allocV_props h v
      obtain ⟨hnF, hgF, hrF, hwfF⟩ := allocF_props (allocV h v).1 kvs
      have hstep : allocF h ((k, v) :: kvs) =
          ((allocF (allocV h v).1 kvs).1,
            (k, (allocV h v).2) :: (allocF (allocV h v).1 kvs).2) := rfl
      rw [hstep]
      refine ⟨le_trans hnV hnF, ?_, ?_, ?_⟩
      · intro a ha
        rw [hgF a (lt_of_lt_of_le ha hnV)]
        exact hgV a ha
      · intro r hr
        simp only [List.map_cons] at hr
        rcases List.mem_cons.mp hr with h1 | h1
        · subst h1
          exact ⟨hrV1, lt_of_lt_of_le hrV2 hnF⟩
        · obtain ⟨h2, h3⟩ := hrF r h1
          exact ⟨le_trans hnV h2, h3⟩
      · intro hlc
        exact hwfF (hwfV hlc)

end

theorem pushCell_get_root (h : Heap) (hv : HVal) :
    (pushCell h hv).1.get (pushCell h hv).2 = some hv := by
  simp [pushCell]

theorem pushCell_get_lt (h : Heap) (hv : HVal) {a : Nat} (ha : a < h.next) :
    (pushCell h hv).1.get a = h.get a := by
  simp [pushCell, Nat.ne_of_lt ha]

theorem readV_hstr {fuel : Nat} {h : Heap} {a : Nat} {s : String}
    (hg : h.get a = some (.hstr s)) : readV (fuel + 1) h a = some (.str s) := by
  rw [readV, hg]

theorem readV_hint {fuel : Nat} {h : Heap} {a : Nat} {n : Int}
    (hg : h.get a = some (.hint n)) : readV (fuel + 1) h a = some (.int n) := by
  rw [readV, hg]

theorem readV_hbool {fuel : Nat} {h : Heap} {a : Nat} {b : Bool}
    (hg : h.get a = some (.hbool b)) : readV (fuel + 1) h a = some (.bool b) := by
  rw [readV, hg]

theorem readV_hnull {fuel : Nat} {h : Heap} {a : Nat}
    (hg : h.get a = some .hnull) : readV (fuel + 1) h a = some .null := by
  rw [readV, hg]

theorem readV_hlist {fuel : Nat} {h : Heap} {a : Nat} {es : List Nat}
    (hg : h.get a = some (.hlist es)) :
    readV (fuel + 1) h a = (readL fuel h es).map .list := by
  rw [readV, hg]

theorem readV_hdict {fuel : Nat} {h : Heap} {a : Nat} {fs : List (String × Nat)}
    (hg : h.get a = some (.hdict fs)) :
    readV (fuel + 1) h a = (readF fuel h fs).map .dict := by
  rw [readV, hg]

mutual

/-- Given enough fuel, dereferencing a freshly allocated graph recovers
exactly the value that was allocated. -/
theorem allocV_read : ∀ (h : Heap) (v : Value) (fuel : Nat),
    lowClosed h h.next → vsize v ≤ fuel →
    readV fuel (allocV h v).1 (allocV h v).2 = some v
  | h, .str s, fuel => by
      intro _ hfuel
      cases fuel with
      | zero => rw [vsize] at hfuel; omega
      | succ f => exact readV_hstr (pushCell_get_root h (.hstr s))
  | h, .int n, fuel => by
      intro _ hfuel
      cases fuel with
      | zero => rw [vsize] at hfuel; omega
      | succ f => exact readV_hint (pushCell_get_root h (.hint n))
  | h, .bool b, fuel => by
      intro _ hfuel
      cases fuel with
      | zero => rw [vsize] at hfuel; omega
      | succ f => exact readV_hbool (pushCell_get_root h (.hbool b))
  | h, .null, fuel => by
      intro _ hfuel
      cases fuel with
      | zero => rw [vsize] at hfuel; omega
      | succ f => exact readV_hnull (pushCell_get_root h .hnull)
  | h, .list xs, fuel => by
      intro hlc hfuel
      cases fuel with
      | zero => rw [vsize] at hfuel; omega
      | succ f =>
        obtain ⟨hn, hg, hr, hwf⟩ := allocL_props h xs
        have hstep : allocV h (.list xs) =
            pushCell (allocL h xs).1 (.hlist (allocL h xs).2) := rfl
        rw [hstep, readV_hlist (pushCell_get_root _ _)]
        have hag : ∀ a, a < (allocL h xs).1.next →
            (pushCell (allocL h xs).1 (.hlist (allocL h xs).2)).1.get a =
              (allocL h xs).1.get a := fun a ha => pushCell_get_lt _ _ ha
        rw [(read_agree (hwf hlc) hag f).2.1 (allocL h xs).2
              (fun a ha => (hr a ha).2),
            allocL_read h xs f hlc (by rw [vsize] at hfuel; omega)]
        rfl
  | h, .dict kvs, fuel => by
      intro hlc hfuel
      cases fuel with
      | zero => rw [vsize] at hfuel; omega
      | succ f =>
        obtain ⟨hn, hg, hr, hwf⟩ := allocF_props h kvs
        have hstep : allocV h (.dict kvs) =
            pushCell (allocF h kvs).1 (.hdict (allocF h kvs).2) := rfl
        rw [hstep, readV_hdict (pushCell_get_root _ _)]
        have hag : ∀ a, a < (allocF h kvs).1.next →
            (pushCell (allocF h kvs).1 (.hdict (allocF h kvs).2)).1.get a =
              (allocF h kvs).1.get a := fun a ha => pushCell_get_lt _ _ ha
        rw [(read_agree (hwf hlc) hag f).2.2 (allocF h kvs).2
              (fun a ha => (hr a ha).2),
            allocF_read h kvs f hlc (by rw [vsize] at hfuel; omega)]
        rfl

theorem allocL_read : ∀ (h : Heap) (xs : List Value) (fuel : Nat),
    lowClosed h h.next → lsize xs ≤ fuel →
    readL fuel (allocL h xs).1 (allocL h xs).2 = some xs
  | h, [], fuel => by
      intro _ _
      cases fuel with
      | zero => rfl
      | succ f => rfl
  | h, x :: xs, fuel => by
      intro hlc hfuel
      cases fuel with
      | zero => rw [lsize] at hfuel; omega
      | succ f =>
        obtain ⟨hnV, hgV, hrV1, hrV2, hwfV⟩ := allocV_props h x
        obtain ⟨hnL, hgL, hrL, hwfL⟩ := allocL_props (allocV h x).1 xs
        have hstep : allocL h (x :: xs) =
            ((allocL (allocV h x).1 xs).1,
              (allocV h x).2 :: (allocL (allocV h x).1 xs).2) := rfl
        rw [hstep, readL]
        have h1 : readV f (allocL (allocV h x).1 xs).1 (allocV h x).2 =
            readV f (allocV h x).1 (allocV h x).2 :=
          (read_agree (hwfV hlc) hgL f).1 _ hrV2
        rw [h1, allocV_read h x f hlc (by rw [lsize] at hfuel; omega),
            allocL_read (allocV h x).1 xs f (hwfV hlc)
              (by rw [lsize] at hfuel; omega)]
        rfl

theorem allocF_read : ∀ (h : Heap) (kvs : List (String × Value)) (fuel : Nat),
    lowClosed h h.next → fsize kvs ≤ fuel →
    readF fuel (allocF h kvs).1 (allocF h kvs).2 = some kvs
  | h, [], fuel => by
      intro _ _
      cases fuel with
      | zero => rfl
      | succ f => rfl
  | h, (k, v) :: kvs, fuel => by
      intro hlc hfuel
      cases fuel with
      | zero => rw [fsize] at hfuel; omega
      | succ f =>
        obtain ⟨hnV, hgV, hrV1, hrV2, hwfV⟩ := allocV_props h v
        obtain ⟨hnF, hgF, hrF, hwfF⟩ := allocF_props (allocV h v).1 kvs
        have hstep : allocF h ((k, v) :: kvs) =
            ((allocF (allocV h v).1 kvs).1,
              (k, (allocV h v).2) :: (allocF (allocV h v).1 kvs).2) := rfl
        rw [hstep, readF]
        have h1 : readV f (allocF (allocV h v).1 kvs).1 (allocV h v).2 =
            readV f (allocV h v).1 (allocV h v).2 :=
          (read_agree (hwfV hlc) hgF f).1 _ hrV2
        rw [h1, allocV_read h v f hlc (by rw [fsize] at hfuel; omega),
            allocF_read (allocV h v).1 kvs f (hwfV hlc)
              (by rw [fsize] at hfuel; omega)]
        rfl

end

/-- C7: records returned by primary-key retrieval are independent deep
copies of the stored records.  If the stored record at address `a0`
dereferences to the value `v`, then the copy produced by
`get_record_copy` (the heap effect of `ujson.loads(ujson.dumps(match))`
in `get_data_from_primary_keys`) dereferences to the same value `v`, its
root is a fresh address, and mutating any fresh cell `b` — in particular
any cell of the returned copy — leaves the dereference of the stored
record, and hence the result of any subsequent identical query,
unchanged. -/
theorem c7_deep_copy_independent (h : Heap) (v : Value) (a0 fuel : Nat)
    (hlc : lowClosed h h.next) (ha0 : a0 < h.next)
    (hv : readV fuel h a0 = some v) (b : Nat) (hb : h.next ≤ b) (w : HVal) :
    readV (vsize v) (get_record_copy h v).1 (get_record_copy h v).2 = some v ∧
    h.next ≤ (get_record_copy h v).2 ∧
    readV fuel ((get_record_copy h v).1.set b w) a0 = readV fuel h a0 ∧
    readV fuel ((get_record_copy h v).1.set b w) a0 = some v := by
  obtain ⟨hn, hg, hr1, hr2, hwf⟩ := allocV_props h v
  have hag : ∀ a, a < h.next →
      ((get_record_copy h v).1.set b w).get a = h.get a := by
    intro a ha
    have hab : a ≠ b := Nat.ne_of_lt (lt_of_lt_of_le ha hb)
    show (if a = b then some w else (allocV h v).1.get a) = h.get a
    rw [if_neg hab]
    exact hg a ha
  have h3 : readV fuel ((get_record_copy h v).1.set b w) a0 = readV fuel h a0 :=
    (read_agree hlc hag fuel).1 a0 ha0
  exact ⟨allocV_read h v (vsize v) hlc (Nat.le_refl _), hr1, h3, h3.trans hv⟩

/-- C7, witness: a one-cell heap stores the record value `"x"` at
address 0; copying it and then overwriting the fresh cell at address 1
leaves the stored record reading as `"x"`, and the copy itself reads
back as `"x"`. -/
theorem c7_witness :
    readV 1
        ((get_record_copy
            (⟨fun a => if a = 0 then some (.hstr "x") else none, 1⟩ : Heap)
            (.str "x")).1.set 1 (.hint 9)) 0 = some (.str "x") ∧
    readV (vsize (.str "x"))
        (get_record_copy
            (⟨fun a => if a = 0 then some (.hstr "x") else none, 1⟩ : Heap)
            (.str "x")).1
        (get_record_copy
            (⟨fun a => if a = 0 then some (.hstr "x") else none, 1⟩ : Heap)
            (.str "x")).2 = some (.str "x") := by
  have hlc : lowClosed
      (⟨fun a => if a = 0 then some (.hstr "x") else none, 1⟩ : Heap) 1 := by
    intro a ha hv hget b hb
    have ha0 : a = 0 := Nat.lt_one_iff.mp ha
    subst ha0
    simp at hget
    rw [← hget] at hb
    cases hb
  have h := c7_deep_copy_independent
      (⟨fun a => if a = 0 then some (.hstr "x") else none, 1⟩ : Heap)
      (.str "x") 0 1 hlc (by decide) rfl 1 (by decide) (.hint 9)
  exact ⟨h.2.2.2, h.1⟩
